import Mathlib

/-!
Verification of the AI-Learning backend text pipeline.

Texts are modelled as `List Char` (one entry per Python character).
Python whitespace is modelled over the ASCII whitespace characters,
which is what the regex class `\s` and `str.strip()` use on ASCII text.
-/

set_option maxRecDepth 10000

/-- Python `\s` / `str.strip()` whitespace, restricted to ASCII. -/
def pyWs (c : Char) : Bool :=
  c = ' ' || c = '\t' || c = '\n' || c = '\r' || c = '\x0b' || c = '\x0c'

/-- Sentence-ending punctuation from the regex class `[.!?]` in
`text_utils.chunk_text`. -/
def isEnder (c : Char) : Bool :=
  c = '.' || c = '!' || c = '?'

/-- Python `str.strip()`: drop leading and trailing whitespace. -/
def strip (l : List Char) : List Char :=
  (l.dropWhile pyWs).rdropWhile pyWs

/-- Whether a list starts with a whitespace character. -/
def headWs : List Char → Bool
  | [] => false
  | c :: _ => pyWs c

/-- Scanner for `re.split(r"(?<=[.!?])\s+", text)`: a match is a maximal
whitespace run whose preceding character is `.`, `!` or `?`; the run is
removed and the text is cut there.  `acc` holds the current piece in
reverse; `skipping` is true while consuming a matched whitespace run. -/
def splitGo (acc : List Char) (skipping : Bool) : List Char → List (List Char)
  | [] => [acc.reverse]
  | c :: rest =>
    if skipping && pyWs c then splitGo acc skipping rest
    else if isEnder c && headWs rest then (acc.reverse ++ [c]) :: splitGo [] true rest
    else splitGo (c :: acc) false rest

/-- `re.split(r"(?<=[.!?])\s+", text)` from `text_utils.chunk_text`. -/
def splitSentences (l : List Char) : List (List Char) :=
  splitGo [] false l

/-- One force-split step list: Python
`[sentence[i:i+max_chars].strip() for i in range(0, len(sentence), max_chars)]`.
Structural on a fuel argument; `forceSplit` instantiates the fuel with the
length of the list, which is enough whenever `b ≥ 1` (for `b = 0` Python
raises, so that case is never exercised by the claims). -/
def forceSplitAux (b : Nat) : Nat → List Char → List (List Char)
  | _, [] => []
  | 0, _ :: _ => []
  | fuel + 1, l => strip (l.take b) :: forceSplitAux b fuel (l.drop b)

/-- Force-splitting of an over-long sentence in `text_utils.chunk_text`. -/
def forceSplit (b : Nat) (l : List Char) : List (List Char) :=
  forceSplitAux b l.length l

/-- The sentence-accumulation loop of `text_utils.chunk_text` (lines 35-66).
`chunks` is the output list built so far, `current` is `current_chunk`. -/
def chunkLoop (b : Nat) (chunks : List (List Char)) (current : List Char) :
    List (List Char) → List (List Char)
  | [] => if strip current ≠ [] then chunks ++ [strip current] else chunks
  | sen :: rest =>
    let s := strip sen
    if s = [] then chunkLoop b chunks current rest
    else if current.length + s.length + 1 > b then
      let chunks2 := if current ≠ [] then chunks ++ [strip current] else chunks
      if s.length > b then chunkLoop b (chunks2 ++ forceSplit b s) [] rest
      else chunkLoop b chunks2 (s ++ [' ']) rest
    else chunkLoop b chunks (current ++ s ++ [' ']) rest

/-- `text_utils.chunk_text(text, max_chars)` (lines 12-66). -/
def chunk_text (text : List Char) (max_chars : Nat) : List (List Char) :=
  if text = [] then [] else chunkLoop max_chars [] [] (splitSentences text)

/-- The non-whitespace characters of a text, in order. -/
def nonWs (l : List Char) : List Char :=
  l.filter (fun c => !pyWs c)

/-- No position of the list matches the sentence-splitting pattern: there is
no sentence-ending character immediately followed by whitespace.  Every
piece produced by `splitSentences` satisfies this. -/
def noSplitPair : List Char → Bool
  | [] => true
  | [_] => true
  | a :: b :: rest => !(isEnder a && pyWs b) && noSplitPair (b :: rest)

/-- The last character of the list is sentence-ending punctuation. -/
def endsEnder : List Char → Bool
  | [] => false
  | [c] => isEnder c
  | _ :: c :: rest => endsEnder (c :: rest)

/-- All pieces of the list except possibly the last end with sentence-ending
punctuation.  This holds for the output of `splitSentences`. -/
def strm : List (List Char) → Prop
  | [] => True
  | [_] => True
  | s :: t :: rest => endsEnder s = true ∧ strm (t :: rest)

/-- The pieces of one accumulated chunk, joined by the single spaces that
`chunk_text` inserts (`current_chunk += sentence + " "`). -/
def joinSp : List (List Char) → List Char
  | [] => []
  | [s] => s
  | s :: t :: rest => s ++ ' ' :: joinSp (t :: rest)

/-- A sentence as it enters the chunk accumulator: nonempty, already
stripped, and containing no sentence-splitting position. -/
def goodSen (s : List Char) : Prop :=
  s ≠ [] ∧ strip s = s ∧ noSplitPair s = true

/-- The raw fixed-size force-split grid (`sentence[i:i+max_chars]` before
the per-slice `strip`), structural on a fuel argument as in `forceSplitAux`. -/
def gridSlices (b : Nat) : Nat → List Char → List (List Char)
  | _, [] => []
  | 0, _ :: _ => []
  | fuel + 1, l => l.take b :: gridSlices b fuel (l.drop b)

/-- Boundary invariant of the splitter scan: the most recently accumulated
character and the next input character never form a split pair. -/
def bnd : List Char → List Char → Prop
  | a :: _, c :: _ => (isEnder a && pyWs c) = false
  | _, _ => True

/-- What `chunk_text` guarantees of every chunk it emits: the chunk is
already stripped, fits in the budget, and, when nonempty, re-chunking it
with the same budget reproduces exactly it. -/
def goodChunk (b : Nat) (c : List Char) : Prop :=
  strip c = c ∧ c.length ≤ b ∧ (c ≠ [] → chunk_text c b = [c])

/-- Invariant of the accumulator `current_chunk` relative to the remaining
sentence stream `rest`. -/
def curInv (b : Nat) (current : List Char) (rest : List (List Char)) : Prop :=
  current = [] ∨
    ∃ ss' slast, current = joinSp (ss' ++ [slast]) ++ [' '] ∧
      (∀ x ∈ ss' ++ [slast], goodSen x) ∧
      (∀ x ∈ ss', endsEnder x = true) ∧
      (rest ≠ [] → endsEnder slast = true) ∧
      current.length ≤ b + 1 ∧ (ss' ≠ [] → current.length ≤ b)

/-! ### The LLM response parser

The parser claims concern `LLMService._parse_flashcard_response`
(`services/llm_service.py` lines 131-235) and the duplicated
`parse_flashcard_response` in `main.py` (lines 341-409).  Both operate on
`str` and use `re.sub`, `re.search` and `json.loads`; the embeddings below
translate those operations over `List Char`.  All scanning functions are
structural on a fuel argument so that concrete inputs evaluate inside the
kernel; the chosen fuels are large enough for every input. -/

/-- JSON values as produced by `json.loads`.  Numbers keep their validated
lexeme (their numeric value is irrelevant to every claim); objects are
Python dicts: keys are unique, a duplicate key in the source text
overwrites the value in place, as `json.loads` does. -/
inductive JVal where
  | jnull
  | jbool (b : Bool)
  | jnum (lexeme : List Char)
  | jstr (s : List Char)
  | jarr (xs : List JVal)
  | jobj (fs : List (List Char × JVal))

/-- Python dict insertion: replace the value in place if the key exists,
else append. -/
def objInsert (fs : List (List Char × JVal)) (k : List Char) (v : JVal) :
    List (List Char × JVal) :=
  match fs with
  | [] => [(k, v)]
  | (k2, v2) :: rest =>
    if k2 = k then (k2, v) :: rest else (k2, v2) :: objInsert rest k v

/-- Python dict lookup (`data[k]` / `k in data`). -/
def jobjGet (fs : List (List Char × JVal)) (k : List Char) : Option JVal :=
  match fs with
  | [] => none
  | (k2, v) :: rest => if k2 = k then some v else jobjGet rest k

/-- The whitespace accepted between JSON tokens by `json.loads`. -/
def jsonWs (c : Char) : Bool :=
  c = ' ' || c = '\t' || c = '\n' || c = '\r'

def skipWs (l : List Char) : List Char := l.dropWhile jsonWs

def isHexDigit (c : Char) : Bool :=
  c.isDigit || ('a' ≤ c && c ≤ 'f') || ('A' ≤ c && c ≤ 'F')

def hexVal (c : Char) : Nat :=
  if c.isDigit then c.toNat - '0'.toNat
  else if 'a' ≤ c && c ≤ 'f' then c.toNat - 'a'.toNat + 10
  else c.toNat - 'A'.toNat + 10

/-- Body of a JSON string after the opening quote: the decoded characters
and the remaining input after the closing quote.  Mirrors the strict
`json.loads` rules: raw control characters are rejected, the standard
escapes and `\uXXXX` are decoded (surrogate pairs are not recombined; the
claims only involve ASCII data). -/
def parseStringBody : List Char → Option (List Char × List Char)
  | [] => none
  | '"' :: r => some ([], r)
  | '\\' :: '"' :: r => (parseStringBody r).map (fun p => ('"' :: p.1, p.2))
  | '\\' :: '\\' :: r => (parseStringBody r).map (fun p => ('\\' :: p.1, p.2))
  | '\\' :: '/' :: r => (parseStringBody r).map (fun p => ('/' :: p.1, p.2))
  | '\\' :: 'b' :: r => (parseStringBody r).map (fun p => ('\x08' :: p.1, p.2))
  | '\\' :: 'f' :: r => (parseStringBody r).map (fun p => ('\x0c' :: p.1, p.2))
  | '\\' :: 'n' :: r => (parseStringBody r).map (fun p => ('\n' :: p.1, p.2))
  | '\\' :: 'r' :: r => (parseStringBody r).map (fun p => ('\r' :: p.1, p.2))
  | '\\' :: 't' :: r => (parseStringBody r).map (fun p => ('\t' :: p.1, p.2))
  | '\\' :: 'u' :: h1 :: h2 :: h3 :: h4 :: r2 =>
    if isHexDigit h1 && isHexDigit h2 && isHexDigit h3 && isHexDigit h4 then
      (parseStringBody r2).map (fun p =>
        (Char.ofNat (((hexVal h1 * 16 + hexVal h2) * 16 + hexVal h3) * 16
          + hexVal h4) :: p.1, p.2))
    else none
  | '\\' :: _ :: _ => none
  | ['\\'] => none
  | c :: r =>
    if c.toNat < 0x20 then none
    else (parseStringBody r).map (fun p => (c :: p.1, p.2))

/-- Optional fraction part of a JSON number (the regex group `(\.\d+)?`):
a dot not followed by a digit is simply not part of the number, exactly as
for the number-matching regex used by `json.loads`. -/
def parseFracPart (l2 : List Char) : List Char × List Char :=
  match l2 with
  | '.' :: r =>
    match r with
    | c :: _ =>
      if c.isDigit then ('.' :: r.takeWhile Char.isDigit, r.dropWhile Char.isDigit)
      else ([], l2)
    | [] => ([], l2)
  | _ => ([], l2)

/-- Optional exponent part of a JSON number (the group `([eE][-+]?\d+)?`). -/
def parseExpPart (l3 : List Char) : List Char × List Char :=
  match l3 with
  | e :: r =>
    if e = 'e' ∨ e = 'E' then
      let (sg, r2) : List Char × List Char := match r with
        | '+' :: r3 => (['+'], r3)
        | '-' :: r3 => (['-'], r3)
        | _ => ([], r)
      match r2 with
      | c :: _ =>
        if c.isDigit then
          (e :: sg ++ r2.takeWhile Char.isDigit, r2.dropWhile Char.isDigit)
        else ([], l3)
      | [] => ([], l3)
    else ([], l3)
  | [] => ([], l3)

/-- JSON number lexeme: `-? (0 | [1-9][0-9]*) (\.[0-9]+)? ([eE][-+]?[0-9]+)?`. -/
def parseNumber (l : List Char) : Option (List Char × List Char) :=
  let (sign, l1) : List Char × List Char := match l with
    | '-' :: r => (['-'], r)
    | _ => ([], l)
  let intPart : Option (List Char × List Char) := match l1 with
    | '0' :: r => some (['0'], r)
    | c :: r =>
      if '1' ≤ c && c ≤ '9' then
        some (c :: r.takeWhile Char.isDigit, r.dropWhile Char.isDigit)
      else none
    | [] => none
  match intPart with
  | none => none
  | some (ip, l2) =>
    let (fp, l3) := parseFracPart l2
    let (ep, l4) := parseExpPart l3
    some (sign ++ ip ++ fp ++ ep, l4)

/-- Parsing modes of the single fueled JSON parser: one JSON value, the
inside of an array (at the start, or after a comma), and the inside of an
object. -/
inductive JMode where
  | value | arrStart | arrNext | objStart | objNext

/-- Recursive descent parser for the JSON fragment accepted by
`json.loads` (including the Python extensions `NaN`, `Infinity` and
`-Infinity`).  The `arr` modes return a `jarr`, the `obj` modes a `jobj`
of raw fields in source order (deduplicated by the caller). -/
def parseF : Nat → JMode → List Char → Option (JVal × List Char)
  | 0, _, _ => none
  | fuel + 1, JMode.value, l0 =>
    match skipWs l0 with
    | 'n' :: r => if r.take 3 = ['u', 'l', 'l'] then some (.jnull, r.drop 3) else none
    | 't' :: r => if r.take 3 = ['r', 'u', 'e'] then some (.jbool true, r.drop 3) else none
    | 'f' :: r =>
      if r.take 4 = ['a', 'l', 's', 'e'] then some (.jbool false, r.drop 4) else none
    | 'N' :: r => if r.take 2 = ['a', 'N'] then some (.jnum ['N', 'a', 'N'], r.drop 2) else none
    | 'I' :: r =>
      if r.take 7 = ['n', 'f', 'i', 'n', 'i', 't', 'y'] then
        some (.jnum ('I' :: ['n', 'f', 'i', 'n', 'i', 't', 'y']), r.drop 7)
      else none
    | '-' :: 'I' :: r =>
      if r.take 7 = ['n', 'f', 'i', 'n', 'i', 't', 'y'] then
        some (.jnum ('-' :: 'I' :: ['n', 'f', 'i', 'n', 'i', 't', 'y']), r.drop 7)
      else none
    | '"' :: r => (parseStringBody r).map (fun p => (.jstr p.1, p.2))
    | '[' :: r => parseF fuel JMode.arrStart r
    | '{' :: r =>
      match parseF fuel JMode.objStart r with
      | some (.jobj raw, rest) =>
        some (.jobj (raw.foldl (fun acc p => objInsert acc p.1 p.2) []), rest)
      | _ => none
    | l => (parseNumber l).map (fun p => (.jnum p.1, p.2))
  | fuel + 1, JMode.arrStart, l =>
    match skipWs l with
    | ']' :: r => some (.jarr [], r)
    | _ => parseF fuel JMode.arrNext l
  | fuel + 1, JMode.arrNext, l =>
    match parseF fuel JMode.value l with
    | none => none
    | some (v, r) =>
      match skipWs r with
      | ']' :: r2 => some (.jarr [v], r2)
      | ',' :: r2 =>
        match parseF fuel JMode.arrNext r2 with
        | some (.jarr xs, r3) => some (.jarr (v :: xs), r3)
        | _ => none
      | _ => none
  | fuel + 1, JMode.objStart, l =>
    match skipWs l with
    | '}' :: r => some (.jobj [], r)
    | _ => parseF fuel JMode.objNext l
  | fuel + 1, JMode.objNext, l =>
    match skipWs l with
    | '"' :: r =>
      match parseStringBody r with
      | none => none
      | some (k, r2) =>
        match skipWs r2 with
        | ':' :: r3 =>
          match parseF fuel JMode.value r3 with
          | none => none
          | some (v, r4) =>
            match skipWs r4 with
            | '}' :: r5 => some (.jobj [(k, v)], r5)
            | ',' :: r5 =>
              match parseF fuel JMode.objNext r5 with
              | some (.jobj fs, r6) => some (.jobj ((k, v) :: fs), r6)
              | _ => none
            | _ => none
        | _ => none
    | _ => none

/-- `json.loads`: parse one JSON value, allow surrounding whitespace,
reject trailing data; `none` models `JSONDecodeError`. -/
def json_loads (l : List Char) : Option JVal :=
  match parseF (4 * l.length + 16) JMode.value l with
  | some (v, rest) => if skipWs rest = [] then some v else none
  | none => none

/-- One pass of `re.sub(r"```(?:json)?\s*\n?", "", text)`: each match is
three backticks, optionally the literal `json`, then a greedy whitespace
run (which subsumes the optional trailing newline).  Structural on fuel;
`fuel = length` is always enough since every step consumes a character. -/
def subFenceAux : Nat → List Char → List Char
  | 0, l => l
  | _ + 1, [] => []
  | fuel + 1, '`' :: '`' :: '`' :: r =>
    let r2 := if r.take 4 = ['j', 's', 'o', 'n'] then r.drop 4 else r
    subFenceAux fuel (r2.dropWhile pyWs)
  | fuel + 1, c :: r => c :: subFenceAux fuel r

/-- Python `str.replace("```", "")`: remove non-overlapping occurrences
left to right. -/
def replaceTicks : Nat → List Char → List Char
  | 0, l => l
  | _ + 1, [] => []
  | fuel + 1, '`' :: '`' :: '`' :: r => replaceTicks fuel r
  | fuel + 1, c :: r => c :: replaceTicks fuel r

/-- `LLMService._clean_markdown` (and the identical inline code of
`main.parse_flashcard_response`): the fence sub, the tick replace, then
`strip`. -/
def clean_markdown (l : List Char) : List Char :=
  let a := subFenceAux l.length l
  strip (replaceTicks a.length a)

/-- The lazy closer search of `re.search(r"\[\s*\{.*?\}\s*\]", re.DOTALL)`:
scanning the text after the opening brace, find the earliest `}` that is
followed by optional whitespace and `]`; return everything consumed up to
and including that `]`. -/
def findCloser : Nat → List Char → Option (List Char)
  | 0, _ => none
  | _ + 1, [] => none
  | fuel + 1, c :: r =>
    if c = '}' then
      match r.dropWhile pyWs with
      | ']' :: _ => some ('}' :: (r.takeWhile pyWs ++ [']']))
      | _ =>
        match findCloser fuel r with
        | some tail => some ('}' :: tail)
        | none => none
    else
      match findCloser fuel r with
      | some tail => some (c :: tail)
      | none => none

/-- Attempt of the array pattern at an opening bracket: `\s*` then `{`
then the lazy closer search. -/
def tryArr (r : List Char) : Option (List Char) :=
  match r.dropWhile pyWs with
  | '{' :: r3 =>
    match findCloser r3.length r3 with
    | some mid => some (r.takeWhile pyWs ++ '{' :: mid)
    | none => none
  | _ => none

def extractArrAux : Nat → List Char → Option (List Char)
  | 0, _ => none
  | _ + 1, [] => none
  | fuel + 1, c :: r =>
    if c = '[' then
      match tryArr r with
      | some m => some ('[' :: m)
      | none => extractArrAux fuel r
    else extractArrAux fuel r

/-- `LLMService._extract_json_array` (and the identical inline code of
`main.parse_flashcard_response`): narrow to the first match of the array
pattern, or keep the whole text when there is none. -/
def extract_json_array (text : List Char) : List Char :=
  match extractArrAux text.length text with
  | some m => m
  | none => text

/-- The validated flashcard record (`models.Flashcard`): the pydantic
validator guarantees both fields are nonempty after stripping; the parser
constructs it only from already stripped nonempty strings, on which the
validator is the identity. -/
structure Flashcard where
  question : List Char
  answer : List Char
deriving DecidableEq, Repr

/-- The failure modes of the two parsers.  All of them surface as raised
exceptions in Python (`ValueError`, or `TypeError` for iterating a
non-iterable), so the parse either returns a list or fails. -/
inductive ParseErr where
  | invalidJson
  | unexpectedStructure
  | notAList
  | typeError
  | noValidCards
deriving DecidableEq, Repr

deriving instance DecidableEq for Except

/-- `item.get(k, "").strip()` on a parsed JSON object: a missing key
defaults to the empty string, a string value is stripped, and a non-string
value raises `AttributeError` (`none`), which the per-item handler turns
into a skip. -/
def itemField (fs : List (List Char × JVal)) (k : List Char) :
    Option (List Char) :=
  match jobjGet fs k with
  | none => some (strip [])
  | some (.jstr s) => some (strip s)
  | some _ => none

def questionKey : List Char := ['q', 'u', 'e', 's', 't', 'i', 'o', 'n']

def answerKey : List Char := ['a', 'n', 's', 'w', 'e', 'r']

/-- One iteration of the conversion loop shared verbatim by both parsers
(`_convert_to_flashcards` and the inline loop of `main.py`): a non-dict
item is skipped, an item whose `question` or `answer` is missing,
non-string, or empty after trimming is skipped, a valid item becomes a
`Flashcard`. -/
def convertStep (item : JVal) : Option Flashcard :=
  match item with
  | .jobj fs =>
    match itemField fs questionKey with
    | none => none
    | some q =>
      match itemField fs answerKey with
      | none => none
      | some a => if q = [] ∨ a = [] then none else some ⟨q, a⟩
  | _ => none

/-- The conversion loop: kept items in order. -/
def convertItems (items : List JVal) : List Flashcard :=
  items.filterMap convertStep

def flashcardsKey : List Char := ['f', 'l', 'a', 's', 'h', 'c', 'a', 'r', 'd', 's']

/-- Python `enumerate(data)` over the value the service parser hands to
its conversion loop: lists iterate their items, strings iterate their
characters (as one-character strings), dicts iterate their keys; every
other value raises `TypeError`. -/
def pyEnumerate : JVal → Except ParseErr (List JVal)
  | .jarr xs => .ok xs
  | .jstr s => .ok (s.map (fun c => JVal.jstr [c]))
  | .jobj fs => .ok (fs.map (fun p => JVal.jstr p.1))
  | _ => .error .typeError

/-- `LLMService._normalize_response_structure`: a dict is unwrapped at the
`flashcards` key and returned immediately without a list check; a non-dict
non-list value is rejected. -/
def service_normalize : JVal → Except ParseErr JVal
  | .jobj fs =>
    match jobjGet fs flashcardsKey with
    | some v => .ok v
    | none => .error .unexpectedStructure
  | .jarr xs => .ok (.jarr xs)
  | _ => .error .notAList

/-- `LLMService._parse_flashcard_response` (llm_service.py lines 131-235). -/
def LLMService_parse_flashcard_response (response_text : List Char) :
    Except ParseErr (List Flashcard) :=
  let cleaned := clean_markdown response_text
  let json_text := extract_json_array cleaned
  match json_loads json_text with
  | none => .error .invalidJson
  | some data =>
    match service_normalize data with
    | .error e => .error e
    | .ok v =>
      match pyEnumerate v with
      | .error e => .error e
      | .ok items =>
        let flashcards := convertItems items
        if flashcards = [] then .error .noValidCards else .ok flashcards

/-- The envelope handling of `main.parse_flashcard_response`: unlike the
service version it re-checks that the unwrapped value is a list. -/
def main_normalize : JVal → Except ParseErr (List JVal)
  | .jobj fs =>
    match jobjGet fs flashcardsKey with
    | some (.jarr xs) => .ok xs
    | some _ => .error .notAList
    | none => .error .unexpectedStructure
  | .jarr xs => .ok xs
  | _ => .error .notAList

/-- `main.parse_flashcard_response` (main.py lines 341-409). -/
def parse_flashcard_response (response_text : List Char) :
    Except ParseErr (List Flashcard) :=
  let cleaned := clean_markdown response_text
  let json_text := extract_json_array cleaned
  match json_loads json_text with
  | none => .error .invalidJson
  | some data =>
    match main_normalize data with
    | .error e => .error e
    | .ok xs =>
      let flashcards := convertItems xs
      if flashcards = [] then .error .noValidCards else .ok flashcards

/-! ### The text cleaner `clean_extracted_text` (text_utils.py lines 111-168)

Each `re.sub` of the Python function is embedded as a dedicated scanning
function realising exactly the matching semantics of its pattern
(leftmost match, greedy quantifiers with backtracking, `re.MULTILINE`
anchors, `re.IGNORECASE` where the source sets it).  All scanners are
structural on a fuel argument instantiated with the input length, which
every one of them consumes at least one character per step. -/

def pyDigit (c : Char) : Bool := c.isDigit

def isWordChar (c : Char) : Bool :=
  c.isAlpha || c.isDigit || c = '_'

/-- `re.sub(r"\n\x7b3,\x7d", "\n\n", text)`: every maximal run of three or
more newlines becomes exactly two; shorter runs are untouched. -/
def cNL (run : Nat) : List Char → List Char
  | [] => List.replicate (min run 2) '\n'
  | c :: rest =>
    if c = '\n' then cNL (run + 1) rest
    else List.replicate (min run 2) '\n' ++ c :: cNL 0 rest

/-- Splits off everything after the last newline: `some (before, after)`
with `l = before ++ newline :: after` and no newline in `after`, or `none`
when `l` has no newline. -/
def splitAtLastNL (l : List Char) : Option (List Char × List Char) :=
  let revAfter := l.reverse.takeWhile (fun c => !(c = '\n'))
  match l.reverse.dropWhile (fun c => !(c = '\n')) with
  | '\n' :: beforeRev => some (beforeRev.reverse, revAfter.reverse)
  | _ => none

/-- `re.sub(r"^\s*\d+\s*$", "", text, flags=re.MULTILINE)`.  A match
starts at a line start, consumes a greedy whitespace run (which may span
blank lines), a digit run, and a further whitespace run; the `$` anchor
makes the match end at the end of the text or just before the last
newline of that run.  The flag records whether the scanner sits at a line
start. -/
def subPN : Nat → Bool → List Char → List Char
  | 0, _, l => l
  | _ + 1, _, [] => []
  | fuel + 1, atLS, c :: rest =>
    if atLS then
      let r1 := (c :: rest).dropWhile pyWs
      let ds := r1.takeWhile pyDigit
      if ds = [] then c :: subPN fuel (c = '\n') rest
      else
        let r2 := r1.dropWhile pyDigit
        let ws2 := r2.takeWhile pyWs
        let r3 := r2.dropWhile pyWs
        if r3 = [] then []
        else
          match splitAtLastNL ws2 with
          | none => c :: subPN fuel (c = '\n') rest
          | some (a, after) =>
            let atLS2 : Bool := match a.getLast? with
              | some x => x = '\n'
              | none => false
            subPN fuel atLS2 ('\n' :: (after ++ r3))
    else c :: subPN fuel (c = '\n') rest

def pageNumSub (t : List Char) : List Char := subPN t.length true t

/-- Case-insensitive literal prefix (the keyword is given lowercase):
returns the remainder after the keyword. -/
def ciPrefix : List Char → List Char → Option (List Char)
  | [], l => some l
  | _ :: _, [] => none
  | k :: ks, c :: cs => if c.toLower = k then ciPrefix ks cs else none

/-- The keyword alternation `(Chapter|Section|Page)` (case-insensitive;
the alternatives start with distinct letters, so at most one matches). -/
def kwAfter (lineSuffix : List Char) : Option (List Char) :=
  match ciPrefix ['c', 'h', 'a', 'p', 't', 'e', 'r'] lineSuffix with
  | some r => some r
  | none =>
    match ciPrefix ['s', 'e', 'c', 't', 'i', 'o', 'n'] lineSuffix with
    | some r => some r
    | none => ciPrefix ['p', 'a', 'g', 'e'] lineSuffix

/-- Attempt `(Chapter|Section|Page)\s+\d+.*$` at the current position of a
line: on success, return the remaining text after the end of the line
that contains the digits (the match span ends there via `\d+.*$`; `\s+`
may cross newlines). -/
def matchKwAt (lineSuffix : List Char) (rest : List Char) : Option (List Char) :=
  match kwAfter lineSuffix with
  | none => none
  | some within =>
    if (within ++ rest).takeWhile pyWs = [] then none
    else
      match (within ++ rest).dropWhile pyWs with
      | d :: ds =>
        if pyDigit d then some ((d :: ds).dropWhile (fun c => !(c = '\n')))
        else none
      | [] => none

/-- Scan one line for the pattern body: the greedy `.*` before `\b` makes
the regex prefer the latest keyword occurrence with a word boundary, so
the scan recurses first and falls back to the present position. -/
def kwScan : Bool → List Char → List Char → Option (List Char)
  | _, [], _ => none
  | prevW, c :: ls, rest =>
    let cand : Option (List Char) :=
      if prevW then none else matchKwAt (c :: ls) rest
    match kwScan (isWordChar c) ls rest with
    | some resume => some resume
    | none => cand

/-- `re.sub(r"^.*\b(Chapter|Section|Page)\s+\d+.*$", "", text,
flags=re.MULTILINE | re.IGNORECASE)`: a matching span starts at a line
start and ends at the end of the line holding the digits; it is removed
and scanning resumes there. -/
def subKwAux : Nat → List Char → List Char
  | 0, l => l
  | _ + 1, [] => []
  | fuel + 1, t =>
    let line := t.takeWhile (fun c => !(c = '\n'))
    let rest := t.dropWhile (fun c => !(c = '\n'))
    match kwScan false line rest with
    | some resume => subKwAux fuel resume
    | none =>
      match rest with
      | '\n' :: r2 => line ++ '\n' :: subKwAux fuel r2
      | _ => line

def kwSub (t : List Char) : List Char := subKwAux t.length t

/-- `\d\x7b1,2\x7d` followed by a literal: the two-digit reading and the
one-digit reading are mutually exclusive, so no backtracking interplay. -/
def d12lit (sep : Char) (l : List Char) : Option (List Char) :=
  match l with
  | a :: b :: c :: r =>
    if pyDigit a && pyDigit b && (c = sep) then some r
    else if pyDigit a && (b = sep) then some (c :: r)
    else none
  | a :: b :: r => if pyDigit a && (b = sep) then some r else none
  | _ => none

/-- `\b\d\x7b1,2\x7d/\d\x7b1,2\x7d/\d\x7b4\x7d` at the current position. -/
def dateAt (l : List Char) : Bool :=
  match d12lit '/' l with
  | none => false
  | some r1 =>
    match d12lit '/' r1 with
    | none => false
    | some r2 =>
      match r2 with
      | y1 :: y2 :: y3 :: y4 :: _ => pyDigit y1 && pyDigit y2 && pyDigit y3 && pyDigit y4
      | _ => false

/-- `\b\d\x7b1,2\x7d:\d\x7b2\x7d` at the current position. -/
def timeAt (l : List Char) : Bool :=
  match d12lit ':' l with
  | none => false
  | some r =>
    match r with
    | a :: b :: _ => pyDigit a && pyDigit b
    | _ => false

/-- `\b(www\.|http://|https://)` at the current position
(case-insensitive). -/
def urlAt (l : List Char) : Bool :=
  (ciPrefix ['w', 'w', 'w', '.'] l).isSome ||
  (ciPrefix ['h', 't', 't', 'p', ':', '/', '/'] l).isSome ||
  (ciPrefix ['h', 't', 't', 'p', 's', ':', '/', '/'] l).isSome

/-- Whether some position of the line, preceded by a word boundary,
matches the given position test. -/
def scanLine (p : List Char → Bool) : Bool → List Char → Bool
  | _, [] => false
  | prevW, c :: ls =>
    ((!prevW) && p (c :: ls)) || scanLine p (isWordChar c) ls

/-- Split on newlines, as Python `text.split("\n")`. -/
def splitNL : List Char → List (List Char)
  | [] => [[]]
  | c :: r =>
    if c = '\n' then [] :: splitNL r
    else
      match splitNL r with
      | ln :: restLines => (c :: ln) :: restLines
      | [] => [[c]]

/-- The date/time/url header subs: every pattern element is confined to a
single line and the span is the whole line (`^.*` … `.*$`), so the sub
empties exactly the lines containing a match. -/
def removeLines (p : List Char → Bool) (t : List Char) : List Char :=
  List.intercalate ['\n'] ((splitNL t).map (fun ln => if p ln then [] else ln))

def dateSub (t : List Char) : List Char := removeLines (scanLine dateAt false) t

def timeSub (t : List Char) : List Char := removeLines (scanLine timeAt false) t

def urlSub (t : List Char) : List Char := removeLines (scanLine urlAt false) t

/-- `re.sub(r" \x7b2,\x7d", " ", text)`: runs of two or more space
characters (spaces only) collapse to one. -/
def cSP (run : Nat) : List Char → List Char
  | [] => List.replicate (min run 1) ' '
  | c :: rest =>
    if c = ' ' then cSP (run + 1) rest
    else List.replicate (min run 1) ' ' ++ c :: cSP 0 rest

def spaceCollapse (t : List Char) : List Char := cSP 0 t

/-- Lines 146-156: strip each line, drop leading and trailing empty
lines, rejoin with newlines. -/
def lineTrim (t : List Char) : List Char :=
  let lines := (splitNL t).map strip
  let lines2 :=
    ((lines.dropWhile (fun ln => ln = [])).reverse.dropWhile
      (fun ln => ln = [])).reverse
  List.intercalate ['\n'] lines2

/-- `re.sub(r"(\w+)-\s*\n\s*(\w+)", r"\1\2", text)`: a word run, a
hyphen, a whitespace run containing a newline, and a second word run;
the hyphen and the whitespace are dropped. -/
def headWord (l : List Char) : Bool :=
  match l with
  | d :: _ => isWordChar d
  | [] => false

def hyphenFixAux : Nat → List Char → List Char
  | 0, l => l
  | _ + 1, [] => []
  | fuel + 1, c :: rest =>
    if isWordChar c then
      let run := (c :: rest).takeWhile isWordChar
      let r1 := (c :: rest).dropWhile isWordChar
      if r1.head? = some '-' then
        let r2 := r1.tail
        let wsr := r2.takeWhile pyWs
        let r3 := r2.dropWhile pyWs
        if wsr.contains '\n' then
          if headWord r3 then
            run ++ r3.takeWhile isWordChar ++ hyphenFixAux fuel (r3.dropWhile isWordChar)
          else run ++ '-' :: hyphenFixAux fuel r2
        else run ++ '-' :: hyphenFixAux fuel r2
      else run ++ hyphenFixAux fuel r1
    else c :: hyphenFixAux fuel rest

def hyphenSub (t : List Char) : List Char := hyphenFixAux t.length t

def isStray (c : Char) : Bool :=
  c = '.' || c = ',' || c = ';' || c = ':' || c = '!' || c = '?'

/-- `re.sub(r"\n\s*[.,;:!?]+\s*\n", "\n", text)`: a newline, optional
whitespace, a punctuation run, then whitespace up to the last newline of
the trailing run; the whole span is replaced by one newline. -/
def sPunct : Nat → List Char → List Char
  | 0, l => l
  | _ + 1, [] => []
  | fuel + 1, c :: rest =>
    if c = '\n' then
      let r1 := rest.dropWhile pyWs
      let ps := r1.takeWhile isStray
      if ps = [] then '\n' :: sPunct fuel rest
      else
        let r2 := r1.dropWhile isStray
        let ws2 := r2.takeWhile pyWs
        let r3 := r2.dropWhile pyWs
        match splitAtLastNL ws2 with
        | some (_, after) => '\n' :: sPunct fuel (after ++ r3)
        | none => '\n' :: sPunct fuel rest
    else c :: sPunct fuel rest

def punctSub (t : List Char) : List Char := sPunct t.length t

/-- `re.sub(r"\n\s*\n\s*\n+", "\n\n", text)`: a whitespace run that
starts with a newline and contains at least three newlines is replaced,
from its first to its last newline, by exactly two newlines. -/
def sBlank : Nat → List Char → List Char
  | 0, l => l
  | _ + 1, [] => []
  | fuel + 1, c :: rest =>
    if c = '\n' then
      let ws := (c :: rest).takeWhile pyWs
      if 3 ≤ ws.count '\n' then
        match splitAtLastNL ws with
        | some (_, after) =>
          '\n' :: '\n' :: sBlank fuel (after ++ (c :: rest).dropWhile pyWs)
        | none => '\n' :: sBlank fuel rest
      else '\n' :: sBlank fuel rest
    else c :: sBlank fuel rest

def blankSub (t : List Char) : List Char := sBlank t.length t

/-- `text_utils.clean_extracted_text` (lines 111-168): the full pipeline. -/
def clean_extracted_text (text : List Char) : List Char :=
  if text = [] then []
  else
    strip (blankSub (punctSub (hyphenSub (lineTrim (spaceCollapse
      (urlSub (timeSub (dateSub (kwSub (pageNumSub (cNL 0 text)))))))))))

/-- No two adjacent space characters. -/
def noDoubleSpace : List Char → Bool
  | a :: b :: rest => !(a = ' ' && b = ' ') && noDoubleSpace (b :: rest)
  | _ => true

/-! ### Basic facts about `strip` -/

theorem strip_nil : strip [] = [] := rfl

theorem strip_length_le (l : List Char) : (strip l).length ≤ l.length :=
  ((List.rdropWhile_prefix pyWs _).length_le).trans
    (List.dropWhile_suffix pyWs).length_le

theorem strip_sublistContig (l : List Char) : strip l <:+: l :=
  ((List.rdropWhile_prefix pyWs _).isInfix).trans
    (List.dropWhile_suffix pyWs).isInfix

theorem headWs_eq_false (l : List Char) (h : ∀ c r, l = c :: r → pyWs c = false) :
    headWs l = false := by
  cases l with
  | nil => rfl
  | cons c r => exact h c r rfl

theorem headWs_strip (l : List Char) : headWs (strip l) = false := by
  cases hs : strip l with
  | nil => rfl
  | cons c r =>
    obtain ⟨t, ht⟩ := List.rdropWhile_prefix pyWs (l.dropWhile pyWs)
    unfold strip at hs
    rw [hs] at ht
    have hh : (l.dropWhile pyWs).head? = some c := by
      rw [← ht]; rfl
    have := List.head?_dropWhile_not pyWs l
    rw [hh] at this
    exact this

theorem strip_last_not (l : List Char) (h : strip l ≠ []) :
    ¬ pyWs ((strip l).getLast h) := by
  unfold strip at h ⊢
  exact List.rdropWhile_last_not _ _ h

theorem strip_eq_self (l : List Char) (h1 : headWs l = false)
    (h2 : ∀ hl : l ≠ [], ¬ pyWs (l.getLast hl)) : strip l = l := by
  cases l with
  | nil => rfl
  | cons c r =>
    have hc : ¬ pyWs c := by simpa [headWs] using h1
    unfold strip
    rw [List.dropWhile_cons_of_neg hc]
    exact List.rdropWhile_eq_self_iff.mpr h2

theorem strip_idem (l : List Char) : strip (strip l) = strip l := by
  apply strip_eq_self
  · exact headWs_strip l
  · exact strip_last_not l

theorem mem_dropWhile_of_not (l : List Char) (c : Char) (hc : c ∈ l)
    (hw : ¬ pyWs c) : c ∈ l.dropWhile pyWs := by
  induction l with
  | nil => simp at hc
  | cons a r ih =>
    rcases List.mem_cons.mp hc with hca | hcr
    · subst hca
      rw [List.dropWhile_cons_of_neg hw]
      exact List.mem_cons_self _ _
    · by_cases ha : pyWs a
      · rw [List.dropWhile_cons_of_pos ha]; exact ih hcr
      · rw [List.dropWhile_cons_of_neg ha]; exact List.mem_cons_of_mem _ hcr

theorem strip_eq_nil_iff (l : List Char) : strip l = [] ↔ ∀ c ∈ l, pyWs c := by
  unfold strip
  rw [List.rdropWhile_eq_nil_iff]
  constructor
  · intro h c hc
    by_cases hw : pyWs c
    · exact hw
    · exact absurd (h c (mem_dropWhile_of_not l c hc hw)) hw
  · intro h c hc
    exact h c ((List.dropWhile_suffix pyWs).subset hc)

theorem strip_append_ws (l : List Char) (c : Char) (hc : pyWs c) :
    strip (l ++ [c]) = strip l := by
  unfold strip
  rw [List.dropWhile_append]
  by_cases h : (l.dropWhile pyWs).isEmpty
  · rw [if_pos h]
    have h2 : l.dropWhile pyWs = [] := by
      cases hh : l.dropWhile pyWs with
      | nil => rfl
      | cons a r => rw [hh] at h; simp [List.isEmpty] at h
    rw [h2]
    simp [List.dropWhile_cons, hc, List.rdropWhile_nil]
  · rw [if_neg h]
    exact List.rdropWhile_concat_pos pyWs _ c hc

theorem filter_dropWhile_ws (l : List Char) :
    (l.dropWhile pyWs).filter (fun c => !pyWs c) = l.filter (fun c => !pyWs c) := by
  induction l with
  | nil => rfl
  | cons c r ih =>
    by_cases h : pyWs c
    · rw [List.dropWhile_cons_of_pos h, ih, List.filter_cons, if_neg (by simp [h])]
    · rw [List.dropWhile_cons_of_neg h]

theorem nonWs_strip (l : List Char) : nonWs (strip l) = nonWs l := by
  unfold nonWs strip List.rdropWhile
  rw [List.filter_reverse, filter_dropWhile_ws, List.filter_reverse,
    List.reverse_reverse, filter_dropWhile_ws]

theorem nonWs_eq_nil_of_all_ws (l : List Char) (h : ∀ c ∈ l, pyWs c) :
    nonWs l = [] := by
  unfold nonWs
  rw [List.filter_eq_nil_iff]
  intro c hc
  simp [h c hc]

theorem strip_getLast?_not (l : List Char) (c : Char)
    (h : (strip l).getLast? = some c) : pyWs c = false := by
  rw [List.getLast?_eq_head?_reverse] at h
  unfold strip List.rdropWhile at h
  rw [List.reverse_reverse] at h
  have hd := List.head?_dropWhile_not pyWs ((l.dropWhile pyWs).reverse)
  rw [h] at hd
  exact hd

theorem strip_eq_self_of (l : List Char) (h1 : headWs l = false)
    (h2 : ∀ c, l.getLast? = some c → pyWs c = false) : strip l = l := by
  apply strip_eq_self l h1
  intro hl hlast
  have := h2 (l.getLast hl) (List.getLast?_eq_getLast l hl)
  rw [hlast] at this
  exact Bool.noConfusion this

/-! ### Facts about `noSplitPair` and `endsEnder` -/

theorem noSplitPair_tail (a : Char) (l : List Char)
    (h : noSplitPair (a :: l) = true) : noSplitPair l = true := by
  cases l with
  | nil => rfl
  | cons b t =>
    simp only [noSplitPair, Bool.and_eq_true] at h
    exact h.2

theorem noSplitPair_cons_pair (a b : Char) (l : List Char)
    (h : noSplitPair (a :: b :: l) = true) : (isEnder a && pyWs b) = false := by
  cases hv : (isEnder a && pyWs b) with
  | false => rfl
  | true =>
    exfalso
    simp only [noSplitPair, hv, Bool.not_true, Bool.false_and] at h
    exact Bool.noConfusion h

theorem noSplitPair_cons_cons (a b : Char) (l : List Char)
    (h1 : (isEnder a && pyWs b) = false) (h2 : noSplitPair (b :: l) = true) :
    noSplitPair (a :: b :: l) = true := by
  simp only [noSplitPair, h1, h2, Bool.not_false, Bool.true_and]

theorem noSplitPair_append_right (x y : List Char)
    (h : noSplitPair (x ++ y) = true) : noSplitPair y = true := by
  induction x with
  | nil => exact h
  | cons a x' ih => exact ih (noSplitPair_tail a _ h)

theorem noSplitPair_append_left (x y : List Char)
    (h : noSplitPair (x ++ y) = true) : noSplitPair x = true := by
  induction x with
  | nil => rfl
  | cons a x' ih =>
    cases x' with
    | nil => rfl
    | cons b t =>
      have hpair : (isEnder a && pyWs b) = false := noSplitPair_cons_pair a b _ h
      have htail : noSplitPair (b :: t) = true := by
        have := ih (noSplitPair_tail a _ h)
        exact this
      exact noSplitPair_cons_cons a b t hpair htail

theorem noSplitPair_sublistContig (x y : List Char) (hxy : x <:+: y)
    (h : noSplitPair y = true) : noSplitPair x = true := by
  obtain ⟨p, s, hps⟩ := hxy
  subst hps
  exact noSplitPair_append_left x s
    (noSplitPair_append_right p (x ++ s) (by rwa [List.append_assoc] at h))

theorem noSplitPair_append_last (l : List Char) (c : Char)
    (h : noSplitPair l = true)
    (hb : ∀ a t, l = t ++ [a] → (isEnder a && pyWs c) = false) :
    noSplitPair (l ++ [c]) = true := by
  induction l with
  | nil => rfl
  | cons x r ih =>
    cases r with
    | nil =>
      exact noSplitPair_cons_cons x c [] (hb x [] rfl) rfl
    | cons y t =>
      have h1 : (isEnder x && pyWs y) = false := noSplitPair_cons_pair x y t h
      have h2 : noSplitPair ((y :: t) ++ [c]) = true := by
        apply ih (noSplitPair_tail x _ h)
        intro a t2 ht2
        exact hb a (x :: t2) (by rw [ht2]; rfl)
      exact noSplitPair_cons_cons x y (t ++ [c]) h1 h2

theorem endsEnder_cons (c : Char) (l : List Char) (h : l ≠ []) :
    endsEnder (c :: l) = endsEnder l := by
  cases l with
  | nil => exact absurd rfl h
  | cons d t => rfl

theorem endsEnder_concat (l : List Char) (c : Char) :
    endsEnder (l ++ [c]) = isEnder c := by
  induction l with
  | nil => rfl
  | cons a t ih => rw [List.cons_append, endsEnder_cons _ _ (by simp), ih]

theorem endsEnder_getLast? (l : List Char) (h : endsEnder l = true) :
    ∃ c, l.getLast? = some c ∧ isEnder c = true := by
  induction l with
  | nil => exact Bool.noConfusion h
  | cons a t ih =>
    cases t with
    | nil => exact ⟨a, rfl, h⟩
    | cons b r =>
      obtain ⟨c, hc1, hc2⟩ := ih (by rwa [endsEnder_cons a _ (by simp)] at h)
      exact ⟨c, by rw [List.getLast?_cons_cons]; exact hc1, hc2⟩

theorem endsEnder_of_getLast? (l : List Char) (c : Char)
    (h : l.getLast? = some c) (hc : isEnder c = true) : endsEnder l = true := by
  induction l with
  | nil => exact Option.noConfusion h
  | cons a t ih =>
    cases t with
    | nil =>
      have : a = c := by
        have := h
        simp [List.getLast?] at this
        exact this
      rw [show endsEnder [a] = isEnder a from rfl, this, hc]
    | cons b r =>
      rw [endsEnder_cons a _ (by simp)]
      exact ih (by rwa [List.getLast?_cons_cons] at h)

/-- Stripping keeps a sentence-ending final character: whitespace is never
an ender, so the trailing strip stops right at it. -/
theorem endsEnder_strip (l : List Char) (h : endsEnder l = true) :
    strip l ≠ [] ∧ endsEnder (strip l) = true := by
  obtain ⟨c, hc1, hc2⟩ := endsEnder_getLast? l h
  have hcw : pyWs c = false := by
    cases hcw : pyWs c with
    | false => rfl
    | true =>
      exfalso
      have : (c = '.' || c = '!' || c = '?') = true := hc2
      have hw : (c = ' ' || c = '\t' || c = '\n' || c = '\r' || c = '\x0b' || c = '\x0c') = true := hcw
      simp only [Bool.or_eq_true, decide_eq_true_eq] at this hw
      rcases this with (h1 | h1) | h1 <;> rcases hw with ((((h2 | h2) | h2) | h2) | h2) | h2 <;>
        simp [h1] at h2
  -- decompose l = l' ++ [c]
  obtain ⟨l', hl'⟩ : ∃ l', l = l' ++ [c] := by
    cases l with
    | nil => exact Option.noConfusion hc1
    | cons a t =>
      refine ⟨(a :: t).dropLast, ?_⟩
      have hne : a :: t ≠ [] := by simp
      have := List.dropLast_append_getLast hne
      rw [List.getLast?_eq_getLast _ hne] at hc1
      have hg : (a :: t).getLast hne = c := by
        injection hc1
      rw [hg] at this
      exact this.symm
  subst hl'
  have hdw : (l' ++ [c]).dropWhile pyWs = l'.dropWhile pyWs ++ [c] := by
    rw [List.dropWhile_append]
    by_cases he : (l'.dropWhile pyWs).isEmpty
    · rw [if_pos he]
      have h2 : l'.dropWhile pyWs = [] := by
        cases hh : l'.dropWhile pyWs with
        | nil => rfl
        | cons a r => rw [hh] at he; simp [List.isEmpty] at he
      rw [h2, List.nil_append]
      rw [List.dropWhile_cons_of_neg (by rw [hcw]; exact Bool.noConfusion)]
    · rw [if_neg he]
  have hstr : strip (l' ++ [c]) = l'.dropWhile pyWs ++ [c] := by
    unfold strip
    rw [hdw]
    exact List.rdropWhile_concat_neg pyWs _ c (by rw [hcw]; exact Bool.noConfusion)
  rw [hstr]
  refine ⟨by simp, ?_⟩
  rw [endsEnder_concat]
  exact hc2

/-! ### Facts about the sentence splitter -/

theorem splitGo_ne_nil (l : List Char) (acc : List Char) (sk : Bool) :
    splitGo acc sk l ≠ [] := by
  induction l generalizing acc sk with
  | nil => simp [splitGo]
  | cons c r ih =>
    simp only [splitGo]
    by_cases h1 : (sk && pyWs c) = true
    · rw [if_pos h1]; exact ih acc sk
    · rw [if_neg h1]
      by_cases h2 : (isEnder c && headWs r) = true
      · rw [if_pos h2]; simp
      · rw [if_neg h2]; exact ih (c :: acc) false

theorem splitGo_cons (acc : List Char) (sk : Bool) (c : Char) (rest : List Char) :
    splitGo acc sk (c :: rest) =
      if sk && pyWs c then splitGo acc sk rest
      else if isEnder c && headWs rest then
        (acc.reverse ++ [c]) :: splitGo [] true rest
      else splitGo (c :: acc) false rest := rfl

theorem splitGo_true_eq_false (acc : List Char) (rest : List Char)
    (h : headWs rest = false) : splitGo acc true rest = splitGo acc false rest := by
  cases rest with
  | nil => rfl
  | cons c r =>
    have hc : pyWs c = false := by simpa [headWs] using h
    rw [splitGo_cons, splitGo_cons,
      if_neg (show ¬ (true && pyWs c) = true by simp [hc]),
      if_neg (show ¬ (false && pyWs c) = true by simp)]

theorem splitGo_no_pair (l : List Char) (acc : List Char)
    (h : noSplitPair l = true) : splitGo acc false l = [acc.reverse ++ l] := by
  induction l generalizing acc with
  | nil => simp [splitGo]
  | cons c r ih =>
    have hcond : (isEnder c && headWs r) = false := by
      cases r with
      | nil => simp [headWs]
      | cons d t =>
        have := noSplitPair_cons_pair c d t h
        simpa [headWs] using this
    simp only [splitGo, Bool.false_and, if_neg (by simp : ¬ (false && pyWs c = true)),
      hcond]
    rw [if_neg (by simp)]
    rw [ih (c :: acc) (noSplitPair_tail c r h)]
    simp

theorem splitSentences_no_pair (l : List Char) (h : noSplitPair l = true) :
    splitSentences l = [l] := by
  unfold splitSentences
  rw [splitGo_no_pair l [] h]
  rfl

theorem splitGo_sentence (s : List Char) (rest : List Char)
    (hnp : noSplitPair s = true) (he : endsEnder s = true)
    (hr : headWs rest = false) :
    ∀ acc, splitGo acc false (s ++ ' ' :: rest) =
      (acc.reverse ++ s) :: splitGo [] false rest := by
  induction s with
  | nil => exact absurd he (by simp [endsEnder])
  | cons c s' ih =>
    intro acc
    cases s' with
    | nil =>
      have hc : isEnder c = true := he
      rw [List.cons_append, List.nil_append, splitGo_cons,
        if_neg (by simp), if_pos (by simp [hc, headWs, pyWs]),
        splitGo_cons, if_pos (by simp [pyWs]),
        splitGo_true_eq_false [] rest hr]
    | cons d t =>
      have hpair : (isEnder c && pyWs d) = false := noSplitPair_cons_pair c d t hnp
      rw [List.cons_append, splitGo_cons, if_neg (by simp),
        if_neg (by simp [headWs, hpair])]
      have hrec := ih (noSplitPair_tail c _ hnp)
        (by rwa [endsEnder_cons c _ (by simp)] at he) (c :: acc)
      rw [List.reverse_cons, List.append_assoc] at hrec
      exact hrec

theorem ender_not_ws (c : Char) (h : isEnder c = true) : pyWs c = false := by
  have hh : (c = '.' || c = '!' || c = '?') = true := h
  simp only [Bool.or_eq_true, decide_eq_true_eq] at hh
  rcases hh with (h1 | h1) | h1 <;> subst h1 <;> decide


theorem acc_of_rev_concat (acc t : List Char) (a : Char)
    (hat : acc.reverse = t ++ [a]) : acc = a :: t.reverse := by
  rw [← List.reverse_reverse acc, hat]
  simp

theorem splitGo_pieces_no_pair (l : List Char) :
    ∀ (acc : List Char) (sk : Bool),
      noSplitPair acc.reverse = true → (sk = true → acc = []) → bnd acc l →
      ∀ p ∈ splitGo acc sk l, noSplitPair p = true := by
  induction l with
  | nil =>
    intro acc sk hacc _ _ p hp
    simp [splitGo] at hp
    subst hp
    exact hacc
  | cons c r ih =>
    intro acc sk hacc hsk hbnd p hp
    rw [splitGo_cons] at hp
    by_cases h1 : (sk && pyWs c) = true
    · rw [if_pos h1] at hp
      have hae : acc = [] := by
        rw [Bool.and_eq_true] at h1
        exact hsk h1.1
      subst hae
      exact ih [] sk hacc hsk trivial p hp
    · rw [if_neg h1] at hp
      by_cases h2 : (isEnder c && headWs r) = true
      · rw [if_pos h2] at hp
        have hce : isEnder c = true := by
          rw [Bool.and_eq_true] at h2; exact h2.1
        rcases List.mem_cons.mp hp with hp1 | hp2
        · subst hp1
          apply noSplitPair_append_last _ _ hacc
          intro a t hat
          rw [ender_not_ws c hce, Bool.and_false]
        · exact ih [] true rfl (fun _ => rfl) trivial p hp2
      · rw [if_neg h2] at hp
        refine ih (c :: acc) false ?_ (by simp) ?_ p hp
        · rw [List.reverse_cons]
          apply noSplitPair_append_last _ _ hacc
          intro a t hat
          obtain ha := acc_of_rev_concat acc t a hat
          rw [ha] at hbnd
          exact hbnd
        · cases r with
          | nil => trivial
          | cons d t2 =>
            show (isEnder c && pyWs d) = false
            cases hv : (isEnder c && pyWs d) with
            | false => rfl
            | true => exact absurd hv h2

theorem strm_cons (s t : List Char) (rest : List (List Char))
    (h1 : endsEnder s = true) (h2 : strm (t :: rest)) : strm (s :: t :: rest) :=
  ⟨h1, h2⟩

theorem strm_splitGo (l : List Char) : ∀ acc sk, strm (splitGo acc sk l) := by
  induction l with
  | nil =>
    intro acc sk
    show strm [acc.reverse]
    trivial
  | cons c r ih =>
    intro acc sk
    rw [splitGo_cons]
    by_cases h1 : (sk && pyWs c) = true
    · rw [if_pos h1]; exact ih acc sk
    · rw [if_neg h1]
      by_cases h2 : (isEnder c && headWs r) = true
      · rw [if_pos h2]
        have hce : isEnder c = true := by
          rw [Bool.and_eq_true] at h2; exact h2.1
        cases hg : splitGo [] true r with
        | nil => exact absurd hg (splitGo_ne_nil r [] true)
        | cons q qs =>
          apply strm_cons
          · rw [endsEnder_concat]; exact hce
          · rw [← hg]; exact ih [] true
      · rw [if_neg h2]; exact ih (c :: acc) false

theorem nonWs_append (x y : List Char) : nonWs (x ++ y) = nonWs x ++ nonWs y := by
  simp [nonWs]

theorem nonWs_cons_ws (c : Char) (r : List Char) (h : pyWs c = true) :
    nonWs (c :: r) = nonWs r := by
  unfold nonWs
  rw [List.filter_cons, if_neg (by simp [h])]

theorem nonWs_cons_split (c : Char) (r : List Char) :
    nonWs (c :: r) = nonWs [c] ++ nonWs r := by
  unfold nonWs
  rw [List.filter_cons, List.filter_cons]
  by_cases h : pyWs c
  · rw [if_neg (by simp [h]), if_neg (by simp [h])]
    rfl
  · rw [if_pos (by simp [h]), if_pos (by simp [h])]
    rfl

theorem nonWs_join_splitGo (l : List Char) :
    ∀ acc sk, nonWs (splitGo acc sk l).flatten = nonWs acc.reverse ++ nonWs l := by
  induction l with
  | nil =>
    intro acc sk
    show nonWs (acc.reverse ++ []) = nonWs acc.reverse ++ nonWs []
    rw [List.append_nil]
    show nonWs acc.reverse = nonWs acc.reverse ++ []
    rw [List.append_nil]
  | cons c r ih =>
    intro acc sk
    rw [splitGo_cons]
    by_cases h1 : (sk && pyWs c) = true
    · rw [if_pos h1, ih acc sk]
      have hcw : pyWs c = true := by
        rw [Bool.and_eq_true] at h1; exact h1.2
      rw [nonWs_cons_ws c r hcw]
    · rw [if_neg h1]
      by_cases h2 : (isEnder c && headWs r) = true
      · rw [if_pos h2, List.flatten_cons, nonWs_append, ih [] true,
          nonWs_append, nonWs_cons_split c r]
        show nonWs acc.reverse ++ nonWs [c] ++ ([] ++ nonWs r)
          = nonWs acc.reverse ++ (nonWs [c] ++ nonWs r)
        rw [List.nil_append, List.append_assoc]
      · rw [if_neg h2, ih (c :: acc) false, List.reverse_cons, nonWs_append,
          List.append_assoc, nonWs_cons_split c r]

theorem nonWs_flatten_splitSentences (l : List Char) :
    nonWs (splitSentences l).flatten = nonWs l := by
  unfold splitSentences
  rw [nonWs_join_splitGo l [] false]
  rfl

/-! ### Facts about `joinSp` -/

theorem joinSp_cons_cons (s t : List Char) (rest : List (List Char)) :
    joinSp (s :: t :: rest) = s ++ ' ' :: joinSp (t :: rest) := rfl

theorem joinSp_append (xs ys : List (List Char)) (hx : xs ≠ []) (hy : ys ≠ []) :
    joinSp (xs ++ ys) = joinSp xs ++ ' ' :: joinSp ys := by
  induction xs with
  | nil => exact absurd rfl hx
  | cons x xr ih =>
    cases xr with
    | nil =>
      cases ys with
      | nil => exact absurd rfl hy
      | cons y t => rfl
    | cons x2 xr2 =>
      show joinSp (x :: ((x2 :: xr2) ++ ys)) = joinSp (x :: x2 :: xr2) ++ ' ' :: joinSp ys
      rw [show ((x2 :: xr2) ++ ys : List (List Char)) = x2 :: (xr2 ++ ys) from rfl,
        joinSp_cons_cons]
      rw [show (x2 :: (xr2 ++ ys) : List (List Char)) = (x2 :: xr2) ++ ys from rfl]
      rw [ih (by simp), joinSp_cons_cons, List.append_assoc]
      rfl

theorem joinSp_length_cons_ge (s : List Char) (ss : List (List Char)) :
    s.length ≤ (joinSp (s :: ss)).length := by
  cases ss with
  | nil => exact le_refl _
  | cons t r =>
    rw [joinSp_cons_cons]
    simp

theorem joinSp_ne_nil (s : List Char) (ss : List (List Char)) (h : s ≠ []) :
    joinSp (s :: ss) ≠ [] := by
  cases ss with
  | nil => exact h
  | cons t r =>
    rw [joinSp_cons_cons]
    simp [h]

theorem headWs_joinSp (s : List Char) (ss : List (List Char))
    (h : headWs s = false) (hne : s ≠ []) :
    headWs (joinSp (s :: ss)) = false := by
  cases ss with
  | nil => exact h
  | cons t r =>
    rw [joinSp_cons_cons]
    cases s with
    | nil => exact absurd rfl hne
    | cons c cr => exact h

theorem getLast?_joinSp_mem (ss : List (List Char)) :
    ∀ s, (∀ x ∈ ss, x ≠ []) →
      ∃ t, t ∈ s :: ss ∧ (joinSp (s :: ss)).getLast? = t.getLast? := by
  induction ss with
  | nil => intro s _; exact ⟨s, by simp, rfl⟩
  | cons y r ih =>
    intro s hall
    obtain ⟨t, ht1, ht2⟩ := ih y (fun x hx => hall x (List.mem_cons_of_mem _ hx))
    refine ⟨t, List.mem_cons_of_mem _ ht1, ?_⟩
    rw [joinSp_cons_cons, List.getLast?_append,
      show (' ' :: joinSp (y :: r) : List Char) = [' '] ++ joinSp (y :: r) from rfl,
      List.getLast?_append]
    have hne := joinSp_ne_nil y r (hall y (by simp))
    cases hm : (joinSp (y :: r)).getLast? with
    | none =>
      exact absurd (by simpa using hm) hne
    | some v =>
      rw [hm] at ht2
      exact ht2

theorem strip_joinSp (ss : List (List Char)) (hne : ss ≠ [])
    (hall : ∀ x ∈ ss, x ≠ [] ∧ strip x = x) :
    strip (joinSp ss) = joinSp ss := by
  cases ss with
  | nil => exact absurd rfl hne
  | cons s r =>
    apply strip_eq_self_of
    · apply headWs_joinSp
      · have := (hall s (by simp)).2
        rw [← this]
        exact headWs_strip s
      · exact (hall s (by simp)).1
    · intro c hc
      obtain ⟨t, ht1, ht2⟩ :=
        getLast?_joinSp_mem r s (fun x hx => (hall x (List.mem_cons_of_mem _ hx)).1)
      rw [ht2] at hc
      have hts := (hall t ht1).2
      rw [← hts] at hc
      exact strip_getLast?_not t c hc

theorem splitSentences_joinSp (ss : List (List Char)) (hne : ss ≠ [])
    (hall : ∀ x ∈ ss, goodSen x) (hEnd : ∀ x ∈ ss.dropLast, endsEnder x = true) :
    splitSentences (joinSp ss) = ss := by
  induction ss with
  | nil => exact absurd rfl hne
  | cons s ss' ih =>
    cases ss' with
    | nil =>
      unfold splitSentences
      show splitGo [] false s = [s]
      rw [splitGo_no_pair s [] (hall s (by simp)).2.2]
      rfl
    | cons t r =>
      have hgt := hall t (by simp)
      have hheadt : headWs (joinSp (t :: r)) = false := by
        apply headWs_joinSp
        · rw [← hgt.2.1]; exact headWs_strip t
        · exact hgt.1
      have hends : endsEnder s = true := by
        apply hEnd
        rw [List.dropLast_cons₂]
        exact List.mem_cons_self _ _
      unfold splitSentences
      rw [joinSp_cons_cons]
      rw [splitGo_sentence s (joinSp (t :: r)) (hall s (by simp)).2.2 hends hheadt []]
      have hih : splitGo [] false (joinSp (t :: r)) = t :: r := by
        have := ih (by simp) (fun x hx => hall x (List.mem_cons_of_mem _ hx))
          (fun x hx => hEnd x (by rw [List.dropLast_cons₂]; exact List.mem_cons_of_mem _ hx))
        exact this
      rw [hih]
      rfl

/-! ### Equation lemmas for `chunkLoop` -/

theorem chunkLoop_nil (b : Nat) (chunks : List (List Char)) (current : List Char) :
    chunkLoop b chunks current [] =
      if strip current ≠ [] then chunks ++ [strip current] else chunks := rfl

theorem chunkLoop_cons (b : Nat) (chunks : List (List Char)) (current : List Char)
    (sen : List Char) (rest : List (List Char)) :
    chunkLoop b chunks current (sen :: rest) =
      if strip sen = [] then chunkLoop b chunks current rest
      else if current.length + (strip sen).length + 1 > b then
        if (strip sen).length > b then
          chunkLoop b ((if current ≠ [] then chunks ++ [strip current] else chunks)
            ++ forceSplit b (strip sen)) [] rest
        else
          chunkLoop b (if current ≠ [] then chunks ++ [strip current] else chunks)
            (strip sen ++ [' ']) rest
      else chunkLoop b chunks (current ++ strip sen ++ [' ']) rest := rfl

/-! ### Re-chunking fixed points -/

theorem chunk_fix_single (b : Nat) (s : List Char) (hs : goodSen s)
    (hlen : s.length ≤ b) : chunk_text s b = [s] := by
  obtain ⟨hne, hstr, hnp⟩ := hs
  unfold chunk_text
  rw [if_neg hne, splitSentences_no_pair s hnp, chunkLoop_cons, hstr, if_neg hne]
  by_cases hgt : List.length ([] : List Char) + s.length + 1 > b
  · rw [if_pos hgt, if_neg (by omega)]
    rw [if_neg (by simp)]
    rw [chunkLoop_nil, strip_append_ws s ' ' (by decide), hstr, if_pos hne]
    rfl
  · rw [if_neg hgt, chunkLoop_nil]
    show (if strip (s ++ [' ']) ≠ [] then [] ++ [strip (s ++ [' '])] else []) = [s]
    rw [strip_append_ws s ' ' (by decide), hstr, if_pos hne]
    rfl

theorem chunkLoop_all_fit (b : Nat) (ss2 : List (List Char)) :
    ∀ (pre : List (List Char)) (chunks : List (List Char)),
      pre ≠ [] →
      (∀ x ∈ pre, x ≠ [] ∧ strip x = x) →
      (∀ x ∈ ss2, goodSen x) →
      (joinSp (pre ++ ss2)).length + 1 ≤ b →
      chunkLoop b chunks (joinSp pre ++ [' ']) ss2 = chunks ++ [joinSp (pre ++ ss2)] := by
  induction ss2 with
  | nil =>
    intro pre chunks hpre hallpre _ hlen
    rw [List.append_nil, chunkLoop_nil, strip_append_ws _ ' ' (by decide),
      strip_joinSp pre hpre hallpre]
    rw [if_pos ?_]
    cases pre with
    | nil => exact absurd rfl hpre
    | cons x xr => exact joinSp_ne_nil x xr (hallpre x (by simp)).1
  | cons s ss2' ih =>
    intro pre chunks hpre hallpre hall2 hlen
    have hs := hall2 s (by simp)
    rw [chunkLoop_cons, hs.2.1, if_neg hs.1]
    have hjoin : joinSp (pre ++ s :: ss2') = joinSp pre ++ ' ' :: joinSp (s :: ss2') :=
      joinSp_append pre (s :: ss2') hpre (by simp)
    have hlen2 : (joinSp pre).length + 1 + (joinSp (s :: ss2')).length + 1 ≤ b := by
      rw [hjoin] at hlen
      simp only [List.length_append, List.length_cons] at hlen
      omega
    have hsle := joinSp_length_cons_ge s ss2'
    have hfits : ¬ ((joinSp pre ++ [' ']).length + s.length + 1 > b) := by
      simp only [List.length_append, List.length_cons, List.length_nil]
      omega
    rw [if_neg hfits]
    have harr : (joinSp pre ++ [' ']) ++ s ++ [' '] = joinSp (pre ++ [s]) ++ [' '] := by
      rw [joinSp_append pre [s] hpre (by simp)]
      show (joinSp pre ++ [' ']) ++ s ++ [' '] = (joinSp pre ++ ' ' :: joinSp [s]) ++ [' ']
      simp [joinSp]
    rw [harr]
    have := ih (pre ++ [s]) chunks (by simp)
      (by
        intro x hx
        rcases List.mem_append.mp hx with h | h
        · exact hallpre x h
        · have : x = s := by simpa using h
          subst this
          exact ⟨hs.1, hs.2.1⟩)
      (fun x hx => hall2 x (List.mem_cons_of_mem _ hx))
      (by rw [List.append_assoc]; exact hlen)
    rw [this, List.append_assoc]
    rfl

theorem chunk_fix_multi (b : Nat) (ss : List (List Char)) (hne : ss ≠ [])
    (hall : ∀ x ∈ ss, goodSen x) (hEnd : ∀ x ∈ ss.dropLast, endsEnder x = true)
    (hlen : (joinSp ss).length + 1 ≤ b) :
    chunk_text (joinSp ss) b = [joinSp ss] := by
  cases ss with
  | nil => exact absurd rfl hne
  | cons s ss' =>
    have hs := hall s (by simp)
    unfold chunk_text
    rw [if_neg (joinSp_ne_nil s ss' hs.1)]
    rw [splitSentences_joinSp (s :: ss') (by simp) hall hEnd]
    rw [chunkLoop_cons, hs.2.1, if_neg hs.1]
    have hsle := joinSp_length_cons_ge s ss'
    rw [if_neg (by simp only [List.length_nil]; omega)]
    show chunkLoop b [] (s ++ [' ']) ss' = [joinSp (s :: ss')]
    have := chunkLoop_all_fit b ss' [s] [] (by simp)
      (by intro x hx; have : x = s := by simpa using hx
          subst this; exact ⟨hs.1, hs.2.1⟩)
      (fun x hx => hall x (List.mem_cons_of_mem _ hx))
      (by show (joinSp (s :: ss')).length + 1 ≤ b; exact hlen)
    simpa [joinSp] using this

/-! ### Facts about force-splitting -/

theorem forceSplitAux_mem (b fuel : Nat) :
    ∀ (l p : List Char), p ∈ forceSplitAux b fuel l →
      ∃ x, x <:+: l ∧ x.length ≤ b ∧ p = strip x := by
  induction fuel with
  | zero =>
    intro l p hp
    cases l with
    | nil => simp [forceSplitAux] at hp
    | cons c r => simp [forceSplitAux] at hp
  | succ f ih =>
    intro l p hp
    cases l with
    | nil => simp [forceSplitAux] at hp
    | cons c r =>
      rw [show forceSplitAux b (f + 1) (c :: r)
          = strip ((c :: r).take b) :: forceSplitAux b f ((c :: r).drop b) from rfl] at hp
      rcases List.mem_cons.mp hp with h | h
      · refine ⟨(c :: r).take b, (List.take_prefix b _).isInfix, ?_, h⟩
        simp [List.length_take]
      · obtain ⟨x, hx1, hx2, hx3⟩ := ih _ p h
        exact ⟨x, hx1.trans (List.drop_suffix b _).isInfix, hx2, hx3⟩

theorem nonWs_flatten_forceSplitAux (b : Nat) (hb : 1 ≤ b) :
    ∀ (fuel : Nat) (l : List Char), l.length ≤ fuel →
      nonWs (forceSplitAux b fuel l).flatten = nonWs l := by
  intro fuel
  induction fuel with
  | zero =>
    intro l hl
    have hnil : l = [] := List.eq_nil_of_length_eq_zero (Nat.le_zero.mp hl)
    subst hnil
    rfl
  | succ f ih =>
    intro l hl
    cases l with
    | nil => rfl
    | cons c r =>
      have hlen2 : ((c :: r).drop b).length ≤ f := by
        simp only [List.length_drop, List.length_cons]
        simp only [List.length_cons] at hl
        omega
      show nonWs ((strip ((c :: r).take b)
          :: forceSplitAux b f ((c :: r).drop b)).flatten) = nonWs (c :: r)
      rw [List.flatten_cons, nonWs_append, nonWs_strip, ih _ hlen2, ← nonWs_append,
        List.take_append_drop]

/-! ### The master invariant of the chunking loop -/


theorem strm_tail (x : List Char) (xs : List (List Char)) (h : strm (x :: xs)) :
    strm xs := by
  cases xs with
  | nil => trivial
  | cons y r => exact h.2

theorem strm_head_ender (x : List Char) (xs : List (List Char)) (h : strm (x :: xs))
    (hne : xs ≠ []) : endsEnder x = true := by
  cases xs with
  | nil => exact absurd rfl hne
  | cons y r => exact h.1

theorem flush_goodChunk (b : Nat) (_hb : 1 ≤ b) (current : List Char)
    (ss' : List (List Char)) (slast : List Char)
    (hcur : current = joinSp (ss' ++ [slast]) ++ [' '])
    (hall : ∀ x ∈ ss' ++ [slast], goodSen x)
    (hend : ∀ x ∈ ss', endsEnder x = true)
    (hlen1 : current.length ≤ b + 1) (hlen2 : ss' ≠ [] → current.length ≤ b) :
    goodChunk b (strip current) := by
  have hjne : (ss' ++ [slast] : List (List Char)) ≠ [] := by simp
  have hstrip : strip current = joinSp (ss' ++ [slast]) := by
    rw [hcur, strip_append_ws _ ' ' (by decide)]
    exact strip_joinSp _ hjne (fun x hx => ⟨(hall x hx).1, (hall x hx).2.1⟩)
  have hlenJ : (joinSp (ss' ++ [slast])).length + 1 = current.length := by
    rw [hcur]
    simp
  refine ⟨?_, ?_, ?_⟩
  · exact strip_idem current
  · rw [hstrip]
    omega
  · intro hne
    rw [hstrip]
    cases ss' with
    | nil =>
      show chunk_text (joinSp ([] ++ [slast])) b = [joinSp ([] ++ [slast])]
      have hj : joinSp ([] ++ [slast] : List (List Char)) = slast := rfl
      rw [hj]
      apply chunk_fix_single b slast (hall slast (by simp))
      have : (joinSp ([] ++ [slast] : List (List Char))).length = slast.length := by
        rw [hj]
      omega
    | cons y t =>
      apply chunk_fix_multi b _ hjne hall
      · rw [List.dropLast_concat]
        exact hend
      · have := hlen2 (by simp)
        omega

theorem chunkLoop_master (b : Nat) (hb : 1 ≤ b) (rest : List (List Char)) :
    ∀ (chunks : List (List Char)) (current : List Char),
      (∀ c ∈ chunks, goodChunk b c) →
      curInv b current rest →
      strm rest →
      (∀ r ∈ rest, noSplitPair r = true) →
      ∀ c ∈ chunkLoop b chunks current rest, goodChunk b c := by
  induction rest with
  | nil =>
    intro chunks current hchunks hcur _ _ c hc
    rw [chunkLoop_nil] at hc
    by_cases h0 : strip current = []
    · rw [if_neg (by simp [h0])] at hc
      exact hchunks c hc
    · rw [if_pos h0] at hc
      rcases List.mem_append.mp hc with h | h
      · exact hchunks c h
      · have hcs : c = strip current := by simpa using h
        subst hcs
        rcases hcur with hnil | ⟨ss', slast, hcur, hall, hend, _, hlen1, hlen2⟩
        · subst hnil
          exact absurd rfl h0
        · exact flush_goodChunk b hb current ss' slast hcur hall hend hlen1 hlen2
  | cons sen rest' ih =>
    intro chunks current hchunks hcur hstrm hnp c hc
    rw [chunkLoop_cons] at hc
    have hnps : noSplitPair (strip sen) = true :=
      noSplitPair_sublistContig _ sen (strip_sublistContig sen) (hnp sen (by simp))
    by_cases hse : strip sen = []
    · rw [if_pos hse] at hc
      refine ih chunks current hchunks ?_ (strm_tail _ _ hstrm)
        (fun r hr => hnp r (List.mem_cons_of_mem _ hr)) c hc
      rcases hcur with hnil | ⟨ss', slast, h1, h2, h3, h4, h5, h6⟩
      · exact Or.inl hnil
      · exact Or.inr ⟨ss', slast, h1, h2, h3, fun _ => h4 (by simp), h5, h6⟩
    · rw [if_neg hse] at hc
      have hgood : goodSen (strip sen) := ⟨hse, strip_idem sen, hnps⟩
      have hender' : rest' ≠ [] → endsEnder (strip sen) = true := by
        intro hne
        exact (endsEnder_strip sen (strm_head_ender sen rest' hstrm hne)).2
      have hchunks2 : ∀ c' ∈ (if current ≠ [] then chunks ++ [strip current]
          else chunks), goodChunk b c' := by
        by_cases hc0 : current = []
        · rw [if_neg (by simp [hc0])]
          exact hchunks
        · rw [if_pos hc0]
          intro c' hc'
          rcases List.mem_append.mp hc' with h | h
          · exact hchunks c' h
          · have : c' = strip current := by simpa using h
            subst this
            rcases hcur with hnil | ⟨ss', slast, h1, h2, h3, _, h5, h6⟩
            · exact absurd hnil hc0
            · exact flush_goodChunk b hb current ss' slast h1 h2 h3 h5 h6
      by_cases hover : current.length + (strip sen).length + 1 > b
      · rw [if_pos hover] at hc
        by_cases hbig : (strip sen).length > b
        · rw [if_pos hbig] at hc
          refine ih _ [] ?_ (Or.inl rfl) (strm_tail _ _ hstrm)
            (fun r hr => hnp r (List.mem_cons_of_mem _ hr)) c hc
          intro c' hc'
          rcases List.mem_append.mp hc' with h | h
          · exact hchunks2 c' h
          · obtain ⟨x, hx1, hx2, hx3⟩ := forceSplitAux_mem b _ _ c' h
            have hnx : noSplitPair x = true := noSplitPair_sublistContig x _ hx1 hnps
            subst hx3
            refine ⟨strip_idem x, (strip_length_le x).trans hx2, ?_⟩
            intro hne
            exact chunk_fix_single b (strip x)
              ⟨hne, strip_idem x, noSplitPair_sublistContig _ x (strip_sublistContig x) hnx⟩
              ((strip_length_le x).trans hx2)
        · rw [if_neg hbig] at hc
          refine ih _ (strip sen ++ [' ']) hchunks2 ?_ (strm_tail _ _ hstrm)
            (fun r hr => hnp r (List.mem_cons_of_mem _ hr)) c hc
          refine Or.inr ⟨[], strip sen, rfl, ?_, by simp, hender', ?_, by simp⟩
          · intro x hx
            have : x = strip sen := by simpa using hx
            subst this
            exact hgood
          · simp only [List.length_append, List.length_cons, List.length_nil]
            omega
      · rw [if_neg hover] at hc
        refine ih chunks (current ++ strip sen ++ [' ']) hchunks ?_
          (strm_tail _ _ hstrm) (fun r hr => hnp r (List.mem_cons_of_mem _ hr)) c hc
        rcases hcur with hnil | ⟨ss', slast, h1, h2, h3, h4, h5, h6⟩
        · subst hnil
          refine Or.inr ⟨[], strip sen, rfl, ?_, by simp, hender', ?_, by simp⟩
          · intro x hx
            have : x = strip sen := by simpa using hx
            subst this
            exact hgood
          · simp only [List.nil_append, List.length_append, List.length_cons,
              List.length_nil] at hover ⊢
            omega
        · refine Or.inr ⟨ss' ++ [slast], strip sen, ?_, ?_, ?_, hender', ?_, ?_⟩
          · rw [h1, joinSp_append (ss' ++ [slast]) [strip sen] (by simp) (by simp)]
            show (joinSp (ss' ++ [slast]) ++ [' ']) ++ strip sen ++ [' ']
              = (joinSp (ss' ++ [slast]) ++ ' ' :: joinSp [strip sen]) ++ [' ']
            simp [joinSp]
          · intro x hx
            rcases List.mem_append.mp hx with h | h
            · exact h2 x h
            · have : x = strip sen := by simpa using h
              subst this
              exact hgood
          · intro x hx
            rcases List.mem_append.mp hx with h | h
            · exact h3 x h
            · have : x = slast := by simpa using h
              subst this
              exact h4 (by simp)
          · simp only [List.length_append, List.length_cons, List.length_nil]
            omega
          · intro _
            simp only [List.length_append, List.length_cons, List.length_nil]
            omega

theorem chunk_text_master (t : List Char) (b : Nat) (hb : 1 ≤ b) :
    ∀ c ∈ chunk_text t b, goodChunk b c := by
  intro c hc
  unfold chunk_text at hc
  by_cases ht : t = []
  · rw [if_pos ht] at hc
    simp at hc
  · rw [if_neg ht] at hc
    refine chunkLoop_master b hb (splitSentences t) [] [] (by simp) (Or.inl rfl)
      ?_ ?_ c hc
    · exact strm_splitGo t [] false
    · intro r hr
      exact splitGo_pieces_no_pair t [] false rfl
        (fun h => Bool.noConfusion h) trivial r hr

/-! ### Content preservation through the chunking loop -/

theorem nonWs_flush (chunks : List (List Char)) (current : List Char) :
    nonWs ((if current ≠ [] then chunks ++ [strip current] else chunks).flatten)
      = nonWs chunks.flatten ++ nonWs current := by
  by_cases h : current = []
  · rw [if_neg (by simp [h]), h]
    show nonWs chunks.flatten = nonWs chunks.flatten ++ ([] : List Char)
    rw [List.append_nil]
  · rw [if_pos h, List.flatten_append, nonWs_append]
    congr 1
    show nonWs (strip current ++ []) = nonWs current
    rw [List.append_nil, nonWs_strip]

theorem nonWs_ws_single : nonWs [' '] = [] := by decide

theorem nonWs_chunkLoop (b : Nat) (hb : 1 ≤ b) (rest : List (List Char)) :
    ∀ (chunks : List (List Char)) (current : List Char),
      nonWs (chunkLoop b chunks current rest).flatten
        = nonWs chunks.flatten ++ nonWs current ++ nonWs rest.flatten := by
  induction rest with
  | nil =>
    intro chunks current
    rw [chunkLoop_nil]
    by_cases h0 : strip current = []
    · rw [if_neg (by simp [h0])]
      rw [nonWs_eq_nil_of_all_ws current ((strip_eq_nil_iff current).mp h0)]
      show nonWs chunks.flatten = nonWs chunks.flatten ++ [] ++ nonWs ([] : List Char)
      simp [nonWs]
    · rw [if_pos h0, List.flatten_append, nonWs_append]
      have h1 : nonWs ([strip current] : List (List Char)).flatten = nonWs current := by
        show nonWs (strip current ++ []) = nonWs current
        rw [List.append_nil, nonWs_strip]
      rw [h1]
      show nonWs chunks.flatten ++ nonWs current
        = nonWs chunks.flatten ++ nonWs current ++ nonWs ([] : List Char)
      simp [nonWs]
  | cons sen rest' ih =>
    intro chunks current
    rw [chunkLoop_cons]
    have hflat : nonWs ((sen :: rest').flatten) = nonWs sen ++ nonWs rest'.flatten := by
      rw [List.flatten_cons, nonWs_append]
    by_cases hse : strip sen = []
    · rw [if_pos hse, ih chunks current, hflat,
        nonWs_eq_nil_of_all_ws sen ((strip_eq_nil_iff sen).mp hse), List.nil_append]
    · rw [if_neg hse]
      by_cases hover : current.length + (strip sen).length + 1 > b
      · rw [if_pos hover]
        by_cases hbig : (strip sen).length > b
        · rw [if_pos hbig, ih, List.flatten_append, nonWs_append, nonWs_flush]
          have hfs : nonWs (forceSplit b (strip sen)).flatten = nonWs sen := by
            unfold forceSplit
            rw [nonWs_flatten_forceSplitAux b hb _ _ (le_refl _), nonWs_strip]
          rw [hfs, hflat]
          simp [nonWs, List.append_assoc]
        · rw [if_neg hbig, ih, nonWs_flush, nonWs_append, nonWs_ws_single, nonWs_strip,
            hflat]
          simp [List.append_assoc]
      · rw [if_neg hover, ih, nonWs_append, nonWs_append, nonWs_ws_single, nonWs_strip,
          hflat]
        simp [List.append_assoc]

theorem chunk_text_nonWs (t : List Char) (b : Nat) (hb : 1 ≤ b) :
    nonWs (chunk_text t b).flatten = nonWs t := by
  unfold chunk_text
  by_cases ht : t = []
  · rw [if_pos ht, ht]
    rfl
  · rw [if_neg ht, nonWs_chunkLoop b hb _ [] []]
    show nonWs ([] : List Char) ++ nonWs ([] : List Char)
        ++ nonWs (splitSentences t).flatten = nonWs t
    rw [nonWs_flatten_splitSentences t]
    rfl

/-! ### Whitespace characters never split and a whitespace-only text -/

theorem ws_not_ender (c : Char) (h : pyWs c = true) : isEnder c = false := by
  have hh : (c = ' ' || c = '\t' || c = '\n' || c = '\r' || c = '\x0b' || c = '\x0c')
      = true := h
  simp only [Bool.or_eq_true, decide_eq_true_eq] at hh
  rcases hh with ((((h1 | h1) | h1) | h1) | h1) | h1 <;> subst h1 <;> decide

theorem all_ws_noSplitPair (t : List Char) (h : ∀ c ∈ t, pyWs c) :
    noSplitPair t = true := by
  induction t with
  | nil => rfl
  | cons a r ih =>
    cases r with
    | nil => rfl
    | cons b2 t2 =>
      apply noSplitPair_cons_cons
      · rw [ws_not_ender a (h a (by simp))]
        rfl
      · exact ih (fun c hc => h c (List.mem_cons_of_mem _ hc))

/-! ### Grid slice facts for force-splitting -/

theorem forceSplitAux_eq_gridSlices (b : Nat) :
    ∀ (fuel : Nat) (l : List Char),
      forceSplitAux b fuel l = (gridSlices b fuel l).map strip := by
  intro fuel
  induction fuel with
  | zero => intro l; cases l <;> rfl
  | succ f ih =>
    intro l
    cases l with
    | nil => rfl
    | cons c r =>
      show strip ((c :: r).take b) :: forceSplitAux b f ((c :: r).drop b)
        = strip ((c :: r).take b) :: (gridSlices b f ((c :: r).drop b)).map strip
      rw [ih]

theorem gridSlices_nil (b fuel : Nat) : gridSlices b fuel [] = [] := by
  cases fuel <;> rfl

theorem gridSlices_eq_nil_iff (b fuel : Nat) (l : List Char)
    (hfuel : l.length ≤ fuel) (_hb : 1 ≤ b) :
    gridSlices b fuel l = [] ↔ l = [] := by
  constructor
  · intro h
    cases l with
    | nil => rfl
    | cons c r =>
      cases fuel with
      | zero => simp at hfuel
      | succ f => exact List.noConfusion h
  · intro h
    subst h
    exact gridSlices_nil b fuel

theorem gridSlices_lengths (b : Nat) (hb : 1 ≤ b) :
    ∀ (fuel : Nat) (l : List Char), l.length ≤ fuel →
      (∀ sl ∈ (gridSlices b fuel l).dropLast, sl.length = b) ∧
      (∀ sl ∈ gridSlices b fuel l, sl.length ≤ b ∧ sl ≠ []) := by
  intro fuel
  induction fuel with
  | zero =>
    intro l hl
    have : l = [] := List.eq_nil_of_length_eq_zero (Nat.le_zero.mp hl)
    subst this
    exact ⟨by simp [gridSlices_nil], by simp [gridSlices_nil]⟩
  | succ f ih =>
    intro l hl
    cases l with
    | nil => exact ⟨by simp [gridSlices_nil], by simp [gridSlices_nil]⟩
    | cons c r =>
      have hg : gridSlices b (f + 1) (c :: r)
          = (c :: r).take b :: gridSlices b f ((c :: r).drop b) := rfl
      have hdlen : ((c :: r).drop b).length ≤ f := by
        simp only [List.length_drop, List.length_cons]
        simp only [List.length_cons] at hl
        omega
      obtain ⟨ih1, ih2⟩ := ih ((c :: r).drop b) hdlen
      constructor
      · intro sl hsl
        rw [hg] at hsl
        by_cases hrec : gridSlices b f ((c :: r).drop b) = []
        · rw [hrec] at hsl
          simp at hsl
        · rw [List.dropLast_cons_of_ne_nil hrec] at hsl
          rcases List.mem_cons.mp hsl with h | h
          · subst h
            have hdrop : (c :: r).drop b ≠ [] :=
              fun hh => hrec (by rw [hh]; exact gridSlices_nil b f)
            have hlt : b < (c :: r).length := by
              by_contra hle
              push_neg at hle
              exact hdrop (List.drop_eq_nil_of_le hle)
            simp only [List.length_cons] at hlt
            simp [List.length_take]
            omega
          · exact ih1 sl h
      · intro sl hsl
        rw [hg] at hsl
        rcases List.mem_cons.mp hsl with h | h
        · subst h
          refine ⟨by simp [List.length_take], ?_⟩
          have : (c :: r).take b ≠ [] := by
            cases b with
            | zero => omega
            | succ b' => simp [List.take_succ_cons]
          exact this
        · exact ih2 sl h

/-! ### Claim theorems for the chunker -/

/-- C1: for every text `t` and every chunk budget `b ≥ 1`, every chunk in
the sequence returned by `chunk_text t b` has length at most `b`
characters, including the chunks produced by force-splitting a single
sentence whose length exceeds `b`. -/
theorem chunk_text_length_le (t : List Char) (b : Nat) (hb : 1 ≤ b) :
    ∀ c ∈ chunk_text t b, c.length ≤ b :=
  fun c hc => (chunk_text_master t b hb c hc).2.1

theorem chunk_text_length_le_witness :
    1 ≤ 3 ∧ "def".toList ∈ chunk_text "abcdefgh".toList 3 ∧
      ("def".toList).length ≤ 3 :=
  ⟨by decide, by decide,
    chunk_text_length_le "abcdefgh".toList 3 (by decide) "def".toList (by decide)⟩

/-- C2: for every text `t` and every chunk budget `b ≥ 1`, concatenating
all chunks returned by `chunk_text t b` reproduces exactly the sequence of
non-whitespace characters of `t`, in their original left-to-right order. -/
theorem chunk_text_content (t : List Char) (b : Nat) (hb : 1 ≤ b) :
    nonWs (chunk_text t b).flatten = nonWs t :=
  chunk_text_nonWs t b hb

theorem chunk_text_content_witness :
    1 ≤ 3 ∧ nonWs (chunk_text "ab. cd ef".toList 3).flatten = nonWs "ab. cd ef".toList :=
  ⟨by decide, chunk_text_content "ab. cd ef".toList 3 (by decide)⟩

/-- C5 counterexample: chunking is not idempotent on its own output.  For
the text `"a     b"` with budget 2, force-splitting emits whitespace-only
slices that strip to empty chunks; re-chunking the empty chunk yields the
empty list rather than the empty chunk, so re-applying the chunker to the
output does not reproduce the output. -/
theorem chunk_text_not_idempotent :
    chunk_text "a     b".toList 2 = [['a'], [], [], ['b']] ∧
    chunk_text [] 2 = [] ∧
    ((chunk_text "a     b".toList 2).map (fun c => chunk_text c 2)).flatten
      ≠ chunk_text "a     b".toList 2 := by
  refine ⟨by decide, rfl, by decide⟩

/-- C5 amended: every nonempty chunk emitted by `chunk_text` is a fixed
point of re-chunking with the same budget: `chunk_text c b = [c]`.  Only
the empty chunks that force-splitting can emit from whitespace-only slices
fail to be reproduced (`chunk_text [] b = []`). -/
theorem chunk_text_rechunk_fixpoint (t : List Char) (b : Nat) (hb : 1 ≤ b) :
    ∀ c ∈ chunk_text t b, c ≠ [] → chunk_text c b = [c] :=
  fun c hc hne => (chunk_text_master t b hb c hc).2.2 hne

theorem chunk_text_rechunk_fixpoint_witness :
    1 ≤ 12 ∧ "Three four!".toList ∈ chunk_text "One two. Three four! Five?".toList 12 ∧
      "Three four!".toList ≠ [] ∧
      chunk_text "Three four!".toList 12 = ["Three four!".toList] :=
  ⟨by decide, by decide, by decide,
    chunk_text_rechunk_fixpoint "One two. Three four! Five?".toList 12 (by decide)
      "Three four!".toList (by decide) (by decide)⟩

/-- C7 counterexample: force-split slices are stripped before being
emitted, so a non-final emitted chunk of an over-long sentence can be
shorter than the budget.  The single sentence `"aa   bb"` (length 7, no
sentence boundary) with budget 3 yields chunks of lengths 2, 1, 1. -/
theorem chunk_text_force_slices_short :
    splitSentences "aa   bb".toList = ["aa   bb".toList] ∧
    ("aa   bb".toList).length = 7 ∧
    chunk_text "aa   bb".toList 3 = ["aa".toList, "b".toList, "b".toList] ∧
    ¬ (∀ c ∈ (chunk_text "aa   bb".toList 3).dropLast, c.length = 3) := by
  refine ⟨by decide, by decide, by decide, by decide⟩

/-- C7 amended: a single sentence (nonempty, stripped, containing no
sentence boundary) whose length exceeds the budget is force-split on the
fixed-size grid of exactly `b`-character slices (last slice possibly
shorter), each slice being emitted after stripping; every raw grid slice
except the last has exactly `b` characters and all are nonempty with
length at most `b`. -/
theorem chunk_text_force_split_grid (s : List Char) (b : Nat) (hb : 1 ≤ b)
    (hs : goodSen s) (hlen : s.length > b) :
    chunk_text s b = (gridSlices b s.length s).map strip ∧
    (∀ sl ∈ (gridSlices b s.length s).dropLast, sl.length = b) ∧
    (∀ sl ∈ gridSlices b s.length s, sl.length ≤ b ∧ sl ≠ []) := by
  obtain ⟨hne, hstr, hnp⟩ := hs
  refine ⟨?_, (gridSlices_lengths b hb s.length s (le_refl _)).1,
    (gridSlices_lengths b hb s.length s (le_refl _)).2⟩
  unfold chunk_text
  rw [if_neg hne, splitSentences_no_pair s hnp, chunkLoop_cons, hstr, if_neg hne,
    if_pos (by simp only [List.length_nil]; omega), if_pos hlen, chunkLoop_nil]
  rw [if_neg (by simp [strip_nil])]
  show (if ([] : List Char) ≠ [] then [] ++ [strip []] else []) ++ forceSplit b s
    = (gridSlices b s.length s).map strip
  rw [if_neg (by simp)]
  unfold forceSplit
  rw [forceSplitAux_eq_gridSlices]
  rfl

theorem chunk_text_force_split_grid_witness :
    (1 ≤ 3 ∧ goodSen "abcdefgh".toList ∧ ("abcdefgh".toList).length > 3) ∧
    chunk_text "abcdefgh".toList 3
      = (gridSlices 3 ("abcdefgh".toList).length "abcdefgh".toList).map strip :=
  ⟨⟨by decide, ⟨by decide, by decide, by decide⟩, by decide⟩,
    (chunk_text_force_split_grid "abcdefgh".toList 3 (by decide)
      ⟨by decide, by decide, by decide⟩ (by decide)).1⟩

/-- C9: every chunk returned by the chunker is trimmed: no element of
`chunk_text t b` has leading or trailing whitespace. -/
theorem chunk_text_trimmed (t : List Char) (b : Nat) (hb : 1 ≤ b) :
    ∀ c ∈ chunk_text t b, strip c = c :=
  fun c hc => (chunk_text_master t b hb c hc).1

theorem chunk_text_trimmed_witness :
    1 ≤ 6 ∧ "ab.".toList ∈ chunk_text "  ab.   cd  ".toList 6 ∧
      strip "ab.".toList = "ab.".toList :=
  ⟨by decide, by decide,
    chunk_text_trimmed "  ab.   cd  ".toList 6 (by decide) "ab.".toList (by decide)⟩

/-- C10: the chunker returns the empty sequence for every whitespace-only
input (not just the empty string), for every budget `b ≥ 1`. -/
theorem chunk_text_ws_only (t : List Char) (b : Nat) (_hb : 1 ≤ b)
    (h : ∀ c ∈ t, pyWs c) : chunk_text t b = [] := by
  unfold chunk_text
  by_cases ht : t = []
  · rw [if_pos ht]
  · rw [if_neg ht, splitSentences_no_pair t (all_ws_noSplitPair t h), chunkLoop_cons,
      if_pos ((strip_eq_nil_iff t).mpr h), chunkLoop_nil]
    rw [if_neg (by simp [strip_nil])]

theorem chunk_text_ws_only_witness :
    1 ≤ 5 ∧ (∀ c ∈ " \t\n  ".toList, pyWs c) ∧ chunk_text " \t\n  ".toList 5 = [] :=
  ⟨by decide, by decide,
    chunk_text_ws_only " \t\n  ".toList 5 (by decide) (by decide)⟩

/-! ### Claim theorems for the parser -/

theorem convertStep_valid (item : JVal) (fc : Flashcard)
    (h : convertStep item = some fc) :
    fc.question ≠ [] ∧ fc.answer ≠ [] := by
  cases item with
  | jobj fs =>
    simp only [convertStep] at h
    cases hq : itemField fs questionKey with
    | none => rw [hq] at h; exact Option.noConfusion h
    | some q =>
      rw [hq] at h
      cases ha : itemField fs answerKey with
      | none => rw [ha] at h; exact Option.noConfusion h
      | some a =>
        rw [ha] at h
        dsimp only at h
        by_cases hqa : q = [] ∨ a = []
        · rw [if_pos hqa] at h; exact Option.noConfusion h
        · rw [if_neg hqa] at h
          injection h with h2
          subst h2
          push_neg at hqa
          exact ⟨hqa.1, hqa.2⟩
  | jnull => exact Option.noConfusion h
  | jbool b => exact Option.noConfusion h
  | jnum x => exact Option.noConfusion h
  | jstr s => exact Option.noConfusion h
  | jarr xs => exact Option.noConfusion h

theorem convertItems_valid (items : List JVal) :
    ∀ fc ∈ convertItems items, fc.question ≠ [] ∧ fc.answer ≠ [] := by
  intro fc hfc
  unfold convertItems at hfc
  obtain ⟨item, _, hstep⟩ := List.mem_filterMap.mp hfc
  exact convertStep_valid item fc hstep

theorem convertItems_jstr_map (xs : List (List Char)) :
    convertItems (xs.map (fun s => JVal.jstr s)) = [] := by
  unfold convertItems
  rw [List.filterMap_eq_nil_iff]
  intro a ha
  obtain ⟨s, _, hs⟩ := List.mem_map.mp ha
  subst hs
  rfl

/-- C3: the response parser never returns an empty batch.  For every reply
string, `LLMService._parse_flashcard_response` either returns a list with
at least one valid record (both fields nonempty) or fails with an error;
individually invalid elements are dropped by `convertStep` without
failing the batch, and a batch that ends up empty fails. -/
theorem parse_never_empty (r : List Char) :
    (∃ l, LLMService_parse_flashcard_response r = Except.ok l ∧ l ≠ [] ∧
        ∀ fc ∈ l, fc.question ≠ [] ∧ fc.answer ≠ []) ∨
    (∃ e, LLMService_parse_flashcard_response r = Except.error e) := by
  have hunf : LLMService_parse_flashcard_response r =
      match json_loads (extract_json_array (clean_markdown r)) with
      | none => Except.error ParseErr.invalidJson
      | some data =>
        match service_normalize data with
        | Except.error e => Except.error e
        | Except.ok v =>
          match pyEnumerate v with
          | Except.error e => Except.error e
          | Except.ok items =>
            if convertItems items = [] then Except.error ParseErr.noValidCards
            else Except.ok (convertItems items) := rfl
  rw [hunf]
  cases hj : json_loads (extract_json_array (clean_markdown r)) with
  | none => exact Or.inr ⟨ParseErr.invalidJson, rfl⟩
  | some data =>
    cases hn : service_normalize data with
    | error e => exact Or.inr ⟨e, by dsimp only; rw [hn]⟩
    | ok v =>
      cases he : pyEnumerate v with
      | error e =>
        exact Or.inr ⟨e, by dsimp only; rw [hn]; dsimp only; rw [he]⟩
      | ok items =>
        by_cases hc : convertItems items = []
        · exact Or.inr ⟨ParseErr.noValidCards, by
            dsimp only; rw [hn]; dsimp only; rw [he]; dsimp only; rw [if_pos hc]⟩
        · exact Or.inl ⟨convertItems items, by
            dsimp only; rw [hn]; dsimp only; rw [he]; dsimp only; rw [if_neg hc], hc,
            convertItems_valid items⟩

/-- C4: on the reply consisting of a JSON array embedded in prose, where
the second element has an empty question, the parser recovers the array
and returns exactly the one valid record Q1/A1. -/
theorem parse_prose_example :
    extract_json_array (clean_markdown ("Here you go: [\x7b\"question\":\"Q1\",\"answer\":\"A1\"\x7d,\x7b\"question\":\"\",\"answer\":\"A2\"\x7d] Hope that helps!").toList)
      = ("[\x7b\"question\":\"Q1\",\"answer\":\"A1\"\x7d,\x7b\"question\":\"\",\"answer\":\"A2\"\x7d]").toList ∧
    LLMService_parse_flashcard_response ("Here you go: [\x7b\"question\":\"Q1\",\"answer\":\"A1\"\x7d,\x7b\"question\":\"\",\"answer\":\"A2\"\x7d] Hope that helps!").toList
      = Except.ok [⟨['Q', '1'], ['A', '1']⟩] := by
  refine ⟨by decide, by decide⟩

/-- C8: the two duplicated parser implementations are behaviourally
equivalent at the result level: on every raw reply string they either
return the same ordered list of records or both fail.  (On the inputs
where they diverge internally, a dict whose `flashcards` value is not a
list, `main.py` rejects the structure while the service version iterates
the value, extracts nothing and fails on the empty batch, or raises
`TypeError` for a non-iterable: both fail.) -/
theorem parsers_equivalent (r : List Char) :
    (parse_flashcard_response r).toOption
      = (LLMService_parse_flashcard_response r).toOption := by
  have hunf1 : parse_flashcard_response r =
      match json_loads (extract_json_array (clean_markdown r)) with
      | none => Except.error ParseErr.invalidJson
      | some data =>
        match main_normalize data with
        | Except.error e => Except.error e
        | Except.ok xs =>
          if convertItems xs = [] then Except.error ParseErr.noValidCards
          else Except.ok (convertItems xs) := rfl
  have hunf2 : LLMService_parse_flashcard_response r =
      match json_loads (extract_json_array (clean_markdown r)) with
      | none => Except.error ParseErr.invalidJson
      | some data =>
        match service_normalize data with
        | Except.error e => Except.error e
        | Except.ok v =>
          match pyEnumerate v with
          | Except.error e => Except.error e
          | Except.ok items =>
            if convertItems items = [] then Except.error ParseErr.noValidCards
            else Except.ok (convertItems items) := rfl
  rw [hunf1, hunf2]
  cases hj : json_loads (extract_json_array (clean_markdown r)) with
  | none => rfl
  | some data =>
    dsimp only
    cases data with
    | jnull => rfl
    | jbool b => rfl
    | jnum x => rfl
    | jstr s => rfl
    | jarr xs => rfl
    | jobj fs =>
      show (match main_normalize (JVal.jobj fs) with
          | Except.error e => Except.error e
          | Except.ok xs => if convertItems xs = [] then Except.error ParseErr.noValidCards
              else Except.ok (convertItems xs)).toOption
        = (match service_normalize (JVal.jobj fs) with
          | Except.error e => Except.error e
          | Except.ok v =>
            match pyEnumerate v with
            | Except.error e => Except.error e
            | Except.ok items => if convertItems items = [] then
                Except.error ParseErr.noValidCards
              else Except.ok (convertItems items)).toOption
      cases hg : jobjGet fs flashcardsKey with
      | none =>
        simp only [main_normalize, service_normalize, hg]
      | some v =>
        simp only [main_normalize, service_normalize, hg]
        cases v with
        | jarr xs => rfl
        | jnull => rfl
        | jbool b => rfl
        | jnum x => rfl
        | jstr s =>
          have h1 : convertItems (s.map (fun c => JVal.jstr [c])) = [] := by
            have := convertItems_jstr_map (s.map (fun c => [c]))
            rw [List.map_map] at this
            exact this
          show (Except.error ParseErr.notAList :
              Except ParseErr (List Flashcard)).toOption
            = (if convertItems (s.map (fun c => JVal.jstr [c])) = [] then
                (Except.error ParseErr.noValidCards :
                  Except ParseErr (List Flashcard))
              else Except.ok (convertItems (s.map (fun c => JVal.jstr [c])))).toOption
          rw [if_pos h1]
          rfl
        | jobj fs2 =>
          have h1 : convertItems (fs2.map (fun p => JVal.jstr p.1)) = [] := by
            have := convertItems_jstr_map (fs2.map (fun p => p.1))
            rw [List.map_map] at this
            exact this
          show (Except.error ParseErr.notAList :
              Except ParseErr (List Flashcard)).toOption
            = (if convertItems (fs2.map (fun p => JVal.jstr p.1)) = [] then
                (Except.error ParseErr.noValidCards :
                  Except ParseErr (List Flashcard))
              else Except.ok (convertItems (fs2.map (fun p => JVal.jstr p.1)))).toOption
          rw [if_pos h1]
          rfl

/-! ### Single-line behaviour of the cleaner stages -/

theorem cNL_no_nl (l : List Char) :
    ∀ run, (∀ c ∈ l, c ≠ '\n') → cNL run l = List.replicate (min run 2) '\n' ++ l := by
  induction l with
  | nil => intro run _; simp [cNL]
  | cons c rest ih =>
    intro run h
    have hc : c ≠ '\n' := h c (by simp)
    show (if c = '\n' then cNL (run + 1) rest
      else List.replicate (min run 2) '\n' ++ c :: cNL 0 rest) = _
    rw [if_neg hc, ih 0 (fun x hx => h x (List.mem_cons_of_mem _ hx))]
    simp

theorem subPN_false_no_nl (fuel : Nat) :
    ∀ l : List Char, (∀ c ∈ l, c ≠ '\n') → l.length ≤ fuel →
      subPN fuel false l = l := by
  induction fuel with
  | zero => intro l _ _; rfl
  | succ f ih =>
    intro l h hl
    cases l with
    | nil => rfl
    | cons c rest =>
      show (if (false : Bool) = true then _ else c :: subPN f (decide (c = '\n')) rest) = _
      rw [if_neg (by simp)]
      have hc : decide (c = '\n') = false := by
        simp [h c (by simp)]
      rw [hc, ih rest (fun x hx => h x (List.mem_cons_of_mem _ hx))
        (by simp at hl; omega)]

theorem splitAtLastNL_none (l : List Char) (h : ∀ c ∈ l, c ≠ '\n') :
    splitAtLastNL l = none := by
  unfold splitAtLastNL
  have hdrop : l.reverse.dropWhile (fun c => !(c = '\n')) = [] := by
    rw [List.dropWhile_eq_nil_iff]
    intro x hx
    simp [h x (List.mem_reverse.mp hx)]
  rw [hdrop]

theorem subPN_true_no_nl (fuel : Nat) (l : List Char)
    (h : ∀ c ∈ l, c ≠ '\n') (hl : l.length ≤ fuel) :
    subPN fuel true l = [] ∨ subPN fuel true l = l := by
  cases l with
  | nil => cases fuel <;> exact Or.inl rfl
  | cons c rest =>
    cases fuel with
    | zero => simp at hl
    | succ f =>
      have hrest : ∀ x ∈ rest, x ≠ '\n' := fun x hx => h x (List.mem_cons_of_mem _ hx)
      have hrl : rest.length ≤ f := by simp at hl; omega
      have hc : decide (c = '\n') = false := by simp [h c (by simp)]
      have hcopy : c :: subPN f (decide (c = '\n')) rest = c :: rest := by
        rw [hc, subPN_false_no_nl f rest hrest hrl]
      rw [show subPN (f + 1) true (c :: rest) =
          (let r1 := List.dropWhile pyWs (c :: rest)
           let ds := List.takeWhile pyDigit r1
           if ds = [] then c :: subPN f (decide (c = '\n')) rest
           else
             let r2 := List.dropWhile pyDigit r1
             let ws2 := List.takeWhile pyWs r2
             let r3 := List.dropWhile pyWs r2
             if r3 = [] then []
             else
               match splitAtLastNL ws2 with
               | none => c :: subPN f (decide (c = '\n')) rest
               | some (a, after) =>
                 let atLS2 : Bool := match a.getLast? with
                   | some x => decide (x = '\n')
                   | none => false
                 subPN f atLS2 ('\n' :: (after ++ r3))) from rfl]
      dsimp only
      by_cases hds : ((c :: rest).dropWhile pyWs).takeWhile pyDigit = []
      · rw [if_pos hds]
        exact Or.inr hcopy
      · rw [if_neg hds]
        by_cases hr3 : (((c :: rest).dropWhile pyWs).dropWhile pyDigit).dropWhile pyWs = []
        · rw [if_pos hr3]
          exact Or.inl rfl
        · rw [if_neg hr3]
          have hws2 : splitAtLastNL
              ((((c :: rest).dropWhile pyWs).dropWhile pyDigit).takeWhile pyWs) = none := by
            apply splitAtLastNL_none
            intro x hx
            exact h x ((List.dropWhile_suffix pyWs).subset
              ((List.dropWhile_suffix pyDigit).subset
                ((List.takeWhile_prefix pyWs).subset hx)))
          rw [hws2]
          exact Or.inr hcopy

theorem ciPrefix_subset (k : List Char) :
    ∀ l r : List Char, ciPrefix k l = some r → ∀ c ∈ r, c ∈ l := by
  induction k with
  | nil =>
    intro l r h c hc
    injection h with h2
    subst h2
    exact hc
  | cons kk ks ih =>
    intro l r h c hc
    cases l with
    | nil => exact Option.noConfusion h
    | cons x xs =>
      show c ∈ x :: xs
      by_cases hx : x.toLower = kk
      · rw [show ciPrefix (kk :: ks) (x :: xs)
            = if x.toLower = kk then ciPrefix ks xs else none from rfl, if_pos hx] at h
        exact List.mem_cons_of_mem _ (ih xs r h c hc)
      · rw [show ciPrefix (kk :: ks) (x :: xs)
            = if x.toLower = kk then ciPrefix ks xs else none from rfl, if_neg hx] at h
        exact Option.noConfusion h

theorem kwAfter_subset (l w : List Char) (h : kwAfter l = some w) :
    ∀ c ∈ w, c ∈ l := by
  unfold kwAfter at h
  cases h1 : ciPrefix ['c', 'h', 'a', 'p', 't', 'e', 'r'] l with
  | some r =>
    rw [h1] at h
    dsimp only at h
    injection h with h2
    subst h2
    exact ciPrefix_subset _ l _ h1
  | none =>
    rw [h1] at h
    dsimp only at h
    cases h2 : ciPrefix ['s', 'e', 'c', 't', 'i', 'o', 'n'] l with
    | some r =>
      rw [h2] at h
      dsimp only at h
      injection h with h3
      subst h3
      exact ciPrefix_subset _ l _ h2
    | none =>
      rw [h2] at h
      dsimp only at h
      exact ciPrefix_subset _ l w h

theorem matchKwAt_resume_no_nl (line rest resume : List Char)
    (h1 : ∀ c ∈ line, c ≠ '\n') (h2 : ∀ c ∈ rest, c ≠ '\n')
    (h : matchKwAt line rest = some resume) : resume = [] := by
  unfold matchKwAt at h
  cases hk : kwAfter line with
  | none => rw [hk] at h; exact Option.noConfusion h
  | some within =>
    rw [hk] at h
    dsimp only at h
    have hsub : ∀ c ∈ within ++ rest, c ≠ '\n' := by
      intro c hc
      rcases List.mem_append.mp hc with hcl | hcr
      · exact h1 c (kwAfter_subset line within hk c hcl)
      · exact h2 c hcr
    by_cases hws : (within ++ rest).takeWhile pyWs = []
    · rw [if_pos hws] at h
      exact Option.noConfusion h
    · rw [if_neg hws] at h
      cases hd : (within ++ rest).dropWhile pyWs with
      | nil => rw [hd] at h; exact Option.noConfusion h
      | cons d ds =>
        rw [hd] at h
        dsimp only at h
        by_cases hdig : pyDigit d
        · rw [if_pos hdig] at h
          injection h with h3
          rw [← h3]
          rw [List.dropWhile_eq_nil_iff]
          intro x hx
          have : x ∈ within ++ rest := (List.dropWhile_suffix pyWs).subset (hd ▸ hx)
          simp [hsub x this]
        · rw [if_neg hdig] at h
          exact Option.noConfusion h

theorem kwScan_resume_nil (line : List Char) :
    ∀ (w : Bool) (rest resume : List Char),
      (∀ c ∈ line, c ≠ '\n') → (∀ c ∈ rest, c ≠ '\n') →
      kwScan w line rest = some resume → resume = [] := by
  induction line with
  | nil =>
    intro w rest resume _ _ h
    exact Option.noConfusion h
  | cons c ls ih =>
    intro w rest resume h1 h2 h
    rw [show kwScan w (c :: ls) rest =
        (match kwScan (isWordChar c) ls rest with
        | some resume => some resume
        | none => if w then none else matchKwAt (c :: ls) rest) from rfl] at h
    cases hrec : kwScan (isWordChar c) ls rest with
    | some r2 =>
      rw [hrec] at h
      injection h with h3
      subst h3
      exact ih _ rest r2 (fun x hx => h1 x (List.mem_cons_of_mem _ hx)) h2 hrec
    | none =>
      rw [hrec] at h
      by_cases hw : w = true
      · rw [hw] at h
        rw [if_pos rfl] at h
        exact Option.noConfusion h
      · have hwf : w = false := by
          cases w
          · rfl
          · exact absurd rfl hw
        rw [hwf] at h
        rw [if_neg (by simp)] at h
        exact matchKwAt_resume_no_nl (c :: ls) rest resume h1 h2 h

theorem takeWhile_no_nl_self (l : List Char) (h : ∀ c ∈ l, c ≠ '\n') :
    l.takeWhile (fun c => !(c = '\n')) = l := by
  rw [List.takeWhile_eq_self_iff]
  intro x hx
  simp [h x hx]

theorem dropWhile_no_nl_nil (l : List Char) (h : ∀ c ∈ l, c ≠ '\n') :
    l.dropWhile (fun c => !(c = '\n')) = [] := by
  rw [List.dropWhile_eq_nil_iff]
  intro x hx
  simp [h x hx]

theorem subKwAux_no_nl (fuel : Nat) (l : List Char)
    (h : ∀ c ∈ l, c ≠ '\n') (hl : l.length ≤ fuel) :
    subKwAux fuel l = [] ∨ subKwAux fuel l = l := by
  cases l with
  | nil => cases fuel <;> exact Or.inl rfl
  | cons c rest =>
    cases fuel with
    | zero => simp at hl
    | succ f =>
      have hline : (c :: rest).takeWhile (fun x => !(x = '\n')) = c :: rest :=
        takeWhile_no_nl_self _ h
      have hrest : (c :: rest).dropWhile (fun x => !(x = '\n')) = [] :=
        dropWhile_no_nl_nil _ h
      rw [show subKwAux (f + 1) (c :: rest) =
          (match kwScan false ((c :: rest).takeWhile (fun x => !(x = '\n')))
              ((c :: rest).dropWhile (fun x => !(x = '\n'))) with
          | some resume => subKwAux f resume
          | none =>
            match (c :: rest).dropWhile (fun x => !(x = '\n')) with
            | '\n' :: r2 => (c :: rest).takeWhile (fun x => !(x = '\n'))
                ++ '\n' :: subKwAux f r2
            | _ => (c :: rest).takeWhile (fun x => !(x = '\n'))) from rfl]
      cases hscan : kwScan false ((c :: rest).takeWhile (fun x => !(x = '\n')))
          ((c :: rest).dropWhile (fun x => !(x = '\n'))) with
      | some resume =>
        have : resume = [] := by
          apply kwScan_resume_nil _ false _ resume _ _ hscan
          · rw [hline]; exact h
          · rw [hrest]; intro x hx; simp at hx
        subst this
        cases f <;> exact Or.inl rfl
      | none =>
        rw [hrest, hline]
        exact Or.inr rfl

theorem splitNL_no_nl (l : List Char) (h : ∀ c ∈ l, c ≠ '\n') :
    splitNL l = [l] := by
  induction l with
  | nil => rfl
  | cons c rest ih =>
    have hc : c ≠ '\n' := h c (by simp)
    show (if c = '\n' then [] :: splitNL rest
      else match splitNL rest with
        | ln :: restLines => (c :: ln) :: restLines
        | [] => [[c]]) = [c :: rest]
    rw [if_neg hc, ih (fun x hx => h x (List.mem_cons_of_mem _ hx))]

theorem intercalate_single (s a : List Char) : List.intercalate s [a] = a := by
  simp [List.intercalate]

theorem removeLines_no_nl (p : List Char → Bool) (l : List Char)
    (h : ∀ c ∈ l, c ≠ '\n') :
    removeLines p l = [] ∨ removeLines p l = l := by
  unfold removeLines
  rw [splitNL_no_nl l h]
  simp only [List.map_cons, List.map_nil]
  by_cases hp : p l = true
  · rw [if_pos hp]
    exact Or.inl (intercalate_single ['\n'] [])
  · rw [if_neg hp]
    exact Or.inr (intercalate_single ['\n'] l)

theorem cSP_noDouble (l : List Char) : noDoubleSpace l = true →
    cSP 0 l = l ∧ (l.head? ≠ some ' ' → cSP 1 l = ' ' :: l) := by
  induction l with
  | nil =>
    intro _
    exact ⟨rfl, fun _ => rfl⟩
  | cons c rest ih =>
    intro h
    have hrest : noDoubleSpace rest = true := by
      cases rest with
      | nil => rfl
      | cons b r =>
        simp only [noDoubleSpace, Bool.and_eq_true] at h
        exact h.2
    obtain ⟨ih1, ih2⟩ := ih hrest
    constructor
    · rw [show cSP 0 (c :: rest) =
        (if c = ' ' then cSP 1 rest
         else List.replicate (min 0 1) ' ' ++ c :: cSP 0 rest) from rfl]
      by_cases hc : c = ' '
      · rw [if_pos hc]
        have hh : rest.head? ≠ some ' ' := by
          cases rest with
          | nil => simp
          | cons b r =>
            simp only [noDoubleSpace, Bool.and_eq_true] at h
            intro hbs
            have hb : b = ' ' := by
              injection hbs
            rw [hc, hb] at h
            simp at h
        rw [ih2 hh, hc]
      · rw [if_neg hc, ih1]
        rfl
    · intro hh
      have hc : ¬ (c = ' ') := by
        intro he
        exact hh (by rw [he]; rfl)
      rw [show cSP 1 (c :: rest) =
        (if c = ' ' then cSP 2 rest
         else List.replicate (min 1 1) ' ' ++ c :: cSP 0 rest) from rfl]
      rw [if_neg hc, ih1]
      rfl

theorem lineTrim_single (l : List Char) (h : ∀ c ∈ l, c ≠ '\n')
    (hs : strip l = l) (hne : l ≠ []) : lineTrim l = l := by
  unfold lineTrim
  rw [splitNL_no_nl l h]
  simp only [List.map_cons, List.map_nil, hs]
  rw [show List.dropWhile (fun ln => decide (ln = [])) [l] = [l] from by
    rw [List.dropWhile_cons_of_neg]
    simp [hne]]
  simp only [List.reverse_cons, List.reverse_nil, List.nil_append]
  rw [show List.dropWhile (fun ln => decide (ln = [])) [l] = [l] from by
    rw [List.dropWhile_cons_of_neg]
    simp [hne]]
  simp only [List.reverse_cons, List.reverse_nil, List.nil_append]
  exact intercalate_single ['\n'] l

theorem hyphenFixAux_no_nl : ∀ (fuel : Nat) (l : List Char),
    (∀ c ∈ l, c ≠ '\n') → hyphenFixAux fuel l = l := by
  intro fuel
  induction fuel with
  | zero => intro l _; rfl
  | succ f ih =>
    intro l h
    cases l with
    | nil => rfl
    | cons c rest =>
      have hdropsub : ∀ x ∈ (c :: rest).dropWhile isWordChar, x ∈ c :: rest :=
        fun x hx => (List.dropWhile_suffix isWordChar).subset hx
      have htailsub : ∀ x ∈ ((c :: rest).dropWhile isWordChar).tail, x ∈ c :: rest := by
        intro x hx
        exact hdropsub x (List.tail_subset _ hx)
      have hr1nl : ∀ x ∈ (c :: rest).dropWhile isWordChar, x ≠ '\n' :=
        fun x hx => h x (hdropsub x hx)
      have hr2 : ∀ x ∈ ((c :: rest).dropWhile isWordChar).tail, x ≠ '\n' :=
        fun x hx => h x (htailsub x hx)
      rw [show hyphenFixAux (f + 1) (c :: rest) =
        (if isWordChar c then
          let run := (c :: rest).takeWhile isWordChar
          let r1 := (c :: rest).dropWhile isWordChar
          if r1.head? = some '-' then
            let r2 := r1.tail
            let wsr := r2.takeWhile pyWs
            let r3 := r2.dropWhile pyWs
            if wsr.contains '\n' then
              if headWord r3 then
                run ++ r3.takeWhile isWordChar ++
                  hyphenFixAux f (r3.dropWhile isWordChar)
              else run ++ '-' :: hyphenFixAux f r2
            else run ++ '-' :: hyphenFixAux f r2
          else run ++ hyphenFixAux f r1
        else c :: hyphenFixAux f rest) from rfl]
      by_cases hw : isWordChar c = true
      · rw [if_pos hw]
        dsimp only
        by_cases hhd : ((c :: rest).dropWhile isWordChar).head? = some '-'
        · rw [if_pos hhd]
          have hws : ((((c :: rest).dropWhile isWordChar).tail).takeWhile pyWs).contains
              '\n' = false := by
            rw [List.contains_eq_any_beq, List.any_eq_false]
            intro x hx
            have hm : x ∈ ((c :: rest).dropWhile isWordChar).tail :=
              (List.takeWhile_prefix pyWs).subset hx
            have hne : ¬ ('\n' = x) := fun he => hr2 x hm he.symm
            simpa using hne
          rw [hws, if_neg (by simp)]
          rw [ih _ hr2]
          cases hr1 : (c :: rest).dropWhile isWordChar with
          | nil =>
            rw [hr1] at hhd
            simp at hhd
          | cons a t =>
            rw [hr1] at hhd
            have ha : a = '-' := by
              rw [List.head?_cons, Option.some_inj] at hhd
              exact hhd
            rw [List.tail_cons, ← ha]
            conv_rhs => rw [← List.takeWhile_append_dropWhile isWordChar (c :: rest)]
            rw [hr1]
        · rw [if_neg hhd]
          rw [ih _ hr1nl]
          exact List.takeWhile_append_dropWhile isWordChar (c :: rest)
      · rw [if_neg hw]
        have hrest : ∀ x ∈ rest, x ≠ '\n' :=
          fun x hx => h x (List.mem_cons_of_mem _ hx)
        rw [ih rest hrest]

theorem sPunct_no_nl : ∀ (fuel : Nat) (l : List Char),
    (∀ c ∈ l, c ≠ '\n') → sPunct fuel l = l := by
  intro fuel
  induction fuel with
  | zero => intro l _; rfl
  | succ f ih =>
    intro l h
    cases l with
    | nil => rfl
    | cons c rest =>
      have hc : ¬ (c = '\n') := h c (by simp)
      rw [show sPunct (f + 1) (c :: rest) =
        (if c = '\n' then
          let r1 := rest.dropWhile pyWs
          let ps := r1.takeWhile isStray
          if ps = [] then '\n' :: sPunct f rest
          else
            let r2 := r1.dropWhile isStray
            let ws2 := r2.takeWhile pyWs
            let r3 := r2.dropWhile pyWs
            match splitAtLastNL ws2 with
            | some (_, after) => '\n' :: sPunct f (after ++ r3)
            | none => '\n' :: sPunct f rest
        else c :: sPunct f rest) from rfl]
      rw [if_neg hc]
      rw [ih rest (fun x hx => h x (List.mem_cons_of_mem _ hx))]

theorem sBlank_no_nl : ∀ (fuel : Nat) (l : List Char),
    (∀ c ∈ l, c ≠ '\n') → sBlank fuel l = l := by
  intro fuel
  induction fuel with
  | zero => intro l _; rfl
  | succ f ih =>
    intro l h
    cases l with
    | nil => rfl
    | cons c rest =>
      have hc : ¬ (c = '\n') := h c (by simp)
      rw [show sBlank (f + 1) (c :: rest) =
        (if c = '\n' then
          let ws := (c :: rest).takeWhile pyWs
          if 3 ≤ ws.count '\n' then
            match splitAtLastNL ws with
            | some (_, after) =>
              '\n' :: '\n' :: sBlank f (after ++ (c :: rest).dropWhile pyWs)
            | none => '\n' :: sBlank f rest
          else '\n' :: sBlank f rest
        else c :: sBlank f rest) from rfl]
      rw [if_neg hc]
      rw [ih rest (fun x hx => h x (List.mem_cons_of_mem _ hx))]

theorem clean_single_line (x : List Char) (hnl : ∀ c ∈ x, c ≠ '\n')
    (hs : strip x = x) (hd : noDoubleSpace x = true) :
    clean_extracted_text x = [] ∨ clean_extracted_text x = x := by
  by_cases hx : x = []
  · subst hx
    exact Or.inl rfl
  · unfold clean_extracted_text
    rw [if_neg hx]
    have hc : cNL 0 x = x := by
      have := cNL_no_nl x 0 hnl
      simpa using this
    simp only [pageNumSub, kwSub, dateSub, timeSub, urlSub, spaceCollapse,
      hyphenSub, punctSub, blankSub]
    rw [hc]
    rcases subPN_true_no_nl x.length x hnl (le_refl _) with h1 | h1
    · rw [h1]
      exact Or.inl rfl
    · rw [h1]
      rcases subKwAux_no_nl x.length x hnl (le_refl _) with h2 | h2
      · rw [h2]
        exact Or.inl rfl
      · rw [h2]
        rcases removeLines_no_nl (scanLine dateAt false) x hnl with h3 | h3
        · rw [h3]
          exact Or.inl rfl
        · rw [h3]
          rcases removeLines_no_nl (scanLine timeAt false) x hnl with h4 | h4
          · rw [h4]
            exact Or.inl rfl
          · rw [h4]
            rcases removeLines_no_nl (scanLine urlAt false) x hnl with h5 | h5
            · rw [h5]
              exact Or.inl rfl
            · rw [h5]
              rw [(cSP_noDouble x hd).1]
              rw [lineTrim_single x hnl hs hx]
              rw [hyphenFixAux_no_nl x.length x hnl]
              rw [sPunct_no_nl x.length x hnl]
              rw [sBlank_no_nl x.length x hnl]
              rw [hs]
              exact Or.inr rfl

/-- C6 counterexample: cleaning is not idempotent.  The input
`"Chap-\nter 5 intro"` is first cleaned to `"Chapter 5 intro"` (the
hyphenation fix joins the broken word), but cleaning that output removes
the whole line (it now matches the `Chapter \d+` header pattern), giving
the empty string. -/
theorem clean_not_idempotent :
    clean_extracted_text ("Chap-\nter 5 intro").toList =
      ("Chapter 5 intro").toList ∧
    clean_extracted_text (clean_extracted_text ("Chap-\nter 5 intro").toList) ≠
      clean_extracted_text ("Chap-\nter 5 intro").toList := by
  constructor
  · decide
  · decide

/-- C6 (amended): `clean_extracted_text` is idempotent on every input that
is a single line (contains no newline), is already stripped of surrounding
whitespace, and contains no two adjacent spaces.  On such inputs each pass
of the pipeline either leaves the text unchanged or empties it, and the
empty string is a fixed point. -/
theorem clean_idempotent_single_line (x : List Char)
    (hnl : ∀ c ∈ x, c ≠ '\n') (hs : strip x = x) (hd : noDoubleSpace x = true) :
    clean_extracted_text (clean_extracted_text x) = clean_extracted_text x := by
  rcases clean_single_line x hnl hs hd with h | h
  · rw [h]
    rfl
  · rw [h]
    exact h

/-- Witness for the amended C6 theorem: `clean_extracted_text` applied
twice to `"hello world"` equals one application. -/
theorem clean_idempotent_single_line_witness :
    clean_extracted_text (clean_extracted_text ("hello world").toList) =
      clean_extracted_text ("hello world").toList :=
  clean_idempotent_single_line ("hello world").toList
    (by decide) (by decide) (by decide)
